import Mathlib

/-!
Verification of the BulkIG-Pro core (post store, scheduling engine, publish
orchestrator, repost engine) against its natural-language specification.

The definitions below are a shallow embedding of the TypeScript sources:
  * `Scheduler` (src/unnamed/part_003): config, preview, queueFile, planPosts,
    getReadyPosts, updatePost, removePost, repost machinery;
  * `Publisher.publishPost` (src/apps/ig-poster/src/env.ts, multi-platform
    variant, lines 91-189);
  * `igWaitFinished` (src/apps/ig-poster/src/ig.ts, lines 31-45).

Modelling conventions:
  * JS `Date` values are modelled as natural numbers of milliseconds since the
    Unix epoch, interpreted in a fixed (UTC, DST-free) timezone; `getDay()`
    becomes `wday`, `setHours(0,0,0,0)` becomes `startOfDay`.
  * `Date.now()` / `new Date()` inside an operation becomes an explicit `now`
    argument of that operation.
  * The id string `post_${Date.now()}_${random}` is an opaque unique token
    (spec section 3); it is modelled by a `nextId` counter in the state.
  * JS `while` loops whose termination is data-dependent are modelled with an
    explicit fuel argument; a `none` result models divergence of the loop.
-/

namespace BulkIG

/-- Milliseconds per minute. -/
def msPerMinute : Nat := 60000

/-- Milliseconds per hour. -/
def msPerHour : Nat := 3600000

/-- Milliseconds per day. -/
def msPerDay : Nat := 86400000

/-- `Date.prototype.getDay()`: weekday of an epoch-millisecond instant,
Sunday = 0.  The epoch (Jan 1 1970) was a Thursday (= 4). -/
def wday (t : Nat) : Nat := (t / msPerDay + 4) % 7

/-- `setHours(0,0,0,0)`: midnight of the day containing `t`. -/
def startOfDay (t : Nat) : Nat := t / msPerDay * msPerDay

/-- Post lifecycle status (types.ts). -/
inductive Status where
  | QUEUED | SCHEDULED | PUBLISHING | PUBLISHED | ERROR
deriving DecidableEq, Repr

/-- A parsed `'HH:MM'` string.  The scheduler's regex `^\d{2}:\d{2}$` only
guarantees two digits per component, so `hh, mm ≤ 99` in general. -/
structure HM where
  hh : Nat
  mm : Nat
deriving DecidableEq, Repr

/-- Millisecond offset of an `'HH:MM'` entry from the start of its day;
`new Date(y, m, d, hh, mm, 0, 0)` equals `startOfDay + hmOffset` (JS rolls
out-of-range components over into later days, which matches this formula). -/
def hmOffset (t : HM) : Nat := t.hh * msPerHour + t.mm * msPerMinute

/-- Lexicographic comparison of `'HH:MM'` strings with two-digit components
coincides with comparison of their millisecond offsets. -/
def hmLe (a b : HM) : Bool := hmOffset a ≤ hmOffset b

/-- `ScheduleMode` (scheduler). -/
inductive ScheduleMode where
  | interval | times
deriving DecidableEq, Repr

/-- `ScheduleConfig` (scheduler). -/
structure ScheduleConfig where
  mode : ScheduleMode
  intervalHours : Nat
  days : List Nat
  times : List HM
  autoRepostEnabled : Bool
deriving DecidableEq, Repr

/-- The scheduler's initial configuration. -/
def defaultConfig : ScheduleConfig :=
  { mode := .interval
    intervalHours := 4
    days := [0, 1, 2, 3, 4, 5, 6]
    times := []
    autoRepostEnabled := false }

/-- A `Partial<ScheduleConfig>` update as accepted by `setConfig`. -/
structure ConfigUpdate where
  mode : Option ScheduleMode := none
  intervalHours : Option Nat := none
  days : Option (List Nat) := none
  times : Option (List HM) := none
  autoRepostEnabled : Option Bool := none
deriving DecidableEq, Repr

/-- `Scheduler.setConfig`: each supplied field is sanitized and stored;
`days` is filtered to `0..6` (an empty result is accepted as-is), `times` is
filtered to two-digit components and sorted, `intervalHours` is clamped to
`≥ 1`. -/
def setConfigC (update : ConfigUpdate) (c : ScheduleConfig) : ScheduleConfig :=
  let c := match update.mode with
    | some m => { c with mode := m }
    | none => c
  let c := match update.intervalHours with
    | some v => if 0 < v then { c with intervalHours := max 1 v } else c
    | none => c
  let c := match update.days with
    | some ds => { c with days := ds.filter (fun n => n ≤ 6) }
    | none => c
  let c := match update.times with
    | some ts =>
        { c with times := (ts.filter (fun t => t.hh ≤ 99 ∧ t.mm ≤ 99)).mergeSort hmLe }
    | none => c
  match update.autoRepostEnabled with
    | some b => { c with autoRepostEnabled := b }
    | none => c

/-- The default times used by `preview` when the configured list is empty. -/
def defaultTimes : List HM := [⟨9, 0⟩, ⟨13, 0⟩, ⟨17, 0⟩, ⟨21, 0⟩]

/-- `this.config.times.length ? this.config.times : ['09:00',...]`. -/
def effectiveTimes (ts : List HM) : List HM :=
  if ts = [] then defaultTimes else ts

/-- The inner `while (!daysSet.has(cursor.getDay())) cursor.setDate(+1)` loop
of interval-mode `preview`, with explicit fuel; 7 steps visit every weekday. -/
def nextAllowedDay (days : List Nat) : Nat → Nat → Option Nat
  | 0, _ => none
  | fuel + 1, t =>
      if days.contains (wday t) then some t
      else nextAllowedDay days fuel (t + msPerDay)

/-- The interval-mode `while (out.length < count)` loop of `preview`. -/
def previewIntervalAux (days : List Nat) (hours count : Nat) :
    Nat → Nat → List Nat → Option (List Nat)
  | 0, _, out => if count ≤ out.length then some out else none
  | fuel + 1, cursor, out =>
      if out.length < count then
        let out' := if days.contains (wday cursor) then out ++ [cursor] else out
        match nextAllowedDay days 7 (cursor + hours * msPerHour) with
        | none => none
        | some c2 => previewIntervalAux days hours count fuel c2 out'
      else some out

/-- The `for (const t of times)` loop of times-mode `preview`: push each
candidate `≥ start`, breaking as soon as `count` entries exist. -/
def pushTimes (start count dayStart : Nat) : List HM → List Nat → List Nat
  | [], out => out
  | t :: rest, out =>
      let cand := dayStart + hmOffset t
      let out' := if start ≤ cand then out ++ [cand] else out
      if count ≤ out'.length then out' else pushTimes start count dayStart rest out'

/-- The times-mode `while (out.length < count)` loop of `preview`. -/
def previewTimesAux (days : List Nat) (times : List HM) (start count : Nat) :
    Nat → Nat → List Nat → Option (List Nat)
  | 0, _, _ => none
  | fuel + 1, cursor, out =>
      if out.length < count then
        let out' :=
          if days.contains (wday cursor) then
            pushTimes start count (startOfDay cursor) times out
          else out
        previewTimesAux days times start count fuel (startOfDay cursor + msPerDay) out'
      else some (out.take count)

/-- `Scheduler.preview(from, count)`.  The fuel bounds are generous enough for
any configuration with a nonempty allowed-days set (proved below); `none`
models divergence of the source's `while` loops. -/
def preview (cfg : ScheduleConfig) (start count : Nat) : Option (List Nat) :=
  match cfg.mode with
  | .interval =>
      previewIntervalAux cfg.days (max 1 cfg.intervalHours) count (count + 1) start []
  | .times =>
      previewTimesAux cfg.days (effectiveTimes cfg.times) start count
        (7 * count + 8) start []

/-- Facebook target of a post (`PostPlatforms.facebook`, types.ts). -/
structure FBTarget where
  enabled : Bool
  pageId : String
deriving DecidableEq, Repr

/-- `PostPlatforms` (types.ts). -/
structure PostPlatforms where
  instagram : Bool
  facebook : Option FBTarget := none
deriving DecidableEq, Repr

/-- `Post` (types.ts).  Optional fields keep their `Option` type; the optional
`repost_count` is modelled as a `Nat` defaulting to 0, matching the reads
`(root.repost_count || 0)`. -/
structure Post where
  id : Nat
  filename : String
  image_url : String
  caption : String
  status : Status
  scheduled_at : Nat
  created_at : Nat
  published_at : Option Nat := none
  ig_media_id : Option String := none
  error_message : Option String := none
  is_repost : Bool := false
  original_post_id : Option Nat := none
  repost_count : Nat := 0
  platforms : Option PostPlatforms := none
deriving DecidableEq, Repr

/-- A `Partial<Post>` patch as presented to `updatePost` by the repository's
call sites (publisher and HTTP layer).  Spec section 4.2: "callers are
responsible for only presenting valid field combinations"; no caller patches
the identity or repost-bookkeeping fields (`id`, `created_at`, `is_repost`,
`original_post_id`, `repost_count`), so those are not part of the patch. -/
structure PostPatch where
  filename : Option String := none
  image_url : Option String := none
  caption : Option String := none
  status : Option Status := none
  scheduled_at : Option Nat := none
  published_at : Option Nat := none
  ig_media_id : Option String := none
  error_message : Option String := none
  platforms : Option PostPlatforms := none
deriving DecidableEq, Repr

/-- `Object.assign(post, updates)` for a `PostPatch`. -/
def applyPatch (u : PostPatch) (p : Post) : Post :=
  { p with
    filename := u.filename.getD p.filename
    image_url := u.image_url.getD p.image_url
    caption := u.caption.getD p.caption
    status := u.status.getD p.status
    scheduled_at := u.scheduled_at.getD p.scheduled_at
    published_at := match u.published_at with | some v => some v | none => p.published_at
    ig_media_id := match u.ig_media_id with | some v => some v | none => p.ig_media_id
    error_message := match u.error_message with | some v => some v | none => p.error_message
    platforms := match u.platforms with | some v => some v | none => p.platforms }

/-- The overrides accepted by `queueFile` (a `Partial<Post>`, plus a `draftId`
side-channel that carries no lifecycle content and is omitted here). -/
structure QueueOverrides where
  caption : Option String := none
  status : Option Status := none
  scheduled_at : Option Nat := none
  ig_media_id : Option String := none
  published_at : Option Nat := none
  error_message : Option String := none
  platforms : Option PostPlatforms := none
deriving DecidableEq, Repr

/-- Caption-generation collaborator (`generateCaption`, generator.ts).  Its
text content is opaque to every property verified here; only the fact that
`queueFile` consults it when no caption override is supplied matters. -/
def generateCaption (filename : String) : String :=
  "caption:" ++ filename

/-- Media-URL computation for a queued file (`localThumbUrl` / `igUrl` in the
scheduler; depends only on environment configuration and the filename). -/
def igUrlFor (filename : String) : String :=
  "media/" ++ filename

/-- The scheduler's mutable state: the in-memory post list, the schedule
configuration, and the fresh-id source (see the header for the id model). -/
structure SchedulerState where
  posts : List Post
  config : ScheduleConfig
  nextId : Nat
deriving DecidableEq, Repr

/-- The state at startup: empty post list, default config. -/
def initialState : SchedulerState :=
  { posts := [], config := defaultConfig, nextId := 0 }

/-- `this.posts.find(p => p.id === id)`. -/
def findPost (id : Nat) (posts : List Post) : Option Post :=
  posts.find? (fun p => p.id = id)

/-- Mutate the first post with the given id in place (the effect of finding a
post with `Array.prototype.find` and assigning to it). -/
def updateFirst (id : Nat) (f : Post → Post) : List Post → List Post
  | [] => []
  | p :: ps => if p.id = id then f p :: ps else p :: updateFirst id f ps

/-- `Array.prototype.splice` of the first post with the given id: the list
without it, and the removed post. -/
def removeFirst (id : Nat) : List Post → List Post × Option Post
  | [] => ([], none)
  | p :: ps =>
      if p.id = id then (ps, some p)
      else
        let (rest, removed) := removeFirst id ps
        (p :: rest, removed)

/-- `Scheduler.queueFile(filename, overrides?)`; `now` is the call instant. -/
def queueFile (filename : String) (ov : QueueOverrides) (now : Nat)
    (s : SchedulerState) : SchedulerState × Post :=
  match s.posts.find? (fun p =>
      p.filename = filename ∧ (p.status = .QUEUED ∨ p.status = .SCHEDULED)) with
  | some existing => (s, existing)
  | none =>
      let post : Post :=
        { id := s.nextId
          filename := filename
          image_url := igUrlFor filename
          caption := ov.caption.getD (generateCaption filename)
          status := ov.status.getD .QUEUED
          scheduled_at := ov.scheduled_at.getD now
          created_at := now
          is_repost := false
          repost_count := 0
          ig_media_id := ov.ig_media_id
          published_at := ov.published_at
          error_message := ov.error_message
          platforms := ov.platforms }
      ({ s with posts := s.posts ++ [post], nextId := s.nextId + 1 }, post)

/-- `Scheduler.updatePost(postId, updates)`. -/
def updatePost (postId : Nat) (u : PostPatch) (s : SchedulerState) : SchedulerState :=
  { s with posts := updateFirst postId (applyPatch u) s.posts }

/-- `Scheduler.removePost(postId)`. -/
def removePost (postId : Nat) (s : SchedulerState) : SchedulerState × Option Post :=
  let (rest, removed) := removeFirst postId s.posts
  match removed with
  | some p => ({ s with posts := rest }, some p)
  | none => (s, none)

/-- `Scheduler.getReadyPosts()`: filter the post list (in store order) for
SCHEDULED posts whose `scheduled_at` is not after `now`. -/
def getReadyPosts (now : Nat) (s : SchedulerState) : List Post :=
  s.posts.filter (fun p => p.status = .SCHEDULED ∧ p.scheduled_at ≤ now)

/-- The `queuedPosts.forEach((post, index) => ...)` assignment of `planPosts`:
the `index`-th QUEUED post (in store order) receives `times[index]`, with the
source's fallback `now + (index+1) hours` for a missing entry, and is flipped
to SCHEDULED. -/
def assignTimes (times : List Nat) (now : Nat) : List Post → Nat → List Post
  | [], _ => []
  | p :: rest, i =>
      if p.status = .QUEUED then
        { p with
            scheduled_at := (times.get? i).getD (now + (i + 1) * msPerHour)
            status := .SCHEDULED } :: assignTimes times now rest (i + 1)
      else p :: assignTimes times now rest i

/-- `Scheduler.planPosts()`; `none` models divergence of the inner `preview`
call (possible only with an empty allowed-days set). -/
def planPosts (now : Nat) (s : SchedulerState) : Option SchedulerState :=
  let queuedCount := (s.posts.filter (fun p => p.status = .QUEUED)).length
  if queuedCount = 0 then some s
  else
    match preview s.config now queuedCount with
    | none => none
    | some times => some { s with posts := assignTimes times now s.posts 0 }

/-- `Scheduler.getRootOriginalId`. -/
def getRootOriginalId (p : Post) : Nat :=
  match p.is_repost, p.original_post_id with
  | true, some oid => oid
  | _, _ => p.id

/-- Accumulator of `Scheduler.getRepostStats`. -/
structure RepostStats where
  total : Nat
  pending : Nat
  last : Option Nat
deriving DecidableEq, Repr

/-- Is a status pending (QUEUED/SCHEDULED/PUBLISHING)? -/
def pendingStatus (st : Status) : Bool :=
  st = .QUEUED ∨ st = .SCHEDULED ∨ st = .PUBLISHING

/-- One iteration of the `for (const p of this.posts)` loop of
`getRepostStats`. -/
def statsStep (rootId : Nat) (st : RepostStats) (p : Post) : RepostStats :=
  let belongs := p.id = rootId ∨ (p.is_repost ∧ p.original_post_id = some rootId)
  if belongs then
    let last :=
      if p.status = .PUBLISHED then
        match p.published_at, st.last with
        | some t, none => some t
        | some t, some l => if l < t then some t else some l
        | none, l => l
      else st.last
    let isChild : Bool := p.is_repost ∧ p.original_post_id = some rootId
    { total := st.total + (if isChild then 1 else 0)
      pending := st.pending + (if isChild ∧ pendingStatus p.status then 1 else 0)
      last := last }
  else st

/-- `Scheduler.getRepostStats(rootId)`. -/
def getRepostStats (rootId : Nat) (posts : List Post) : RepostStats :=
  posts.foldl (statsStep rootId) ⟨0, 0, none⟩

/-- Reason for a repost request. -/
inductive RepostReason where
  | manual | auto
deriving DecidableEq, Repr

/-- The 60-day auto-repost cooldown in milliseconds. -/
def sixtyDays : Nat := 60 * 24 * 60 * 60 * 1000

/-- `Scheduler.scheduleRepostFromId(postId, reason)`; `now` is the call
instant.  Returns the updated state and the created repost (if any). -/
def scheduleRepostFromId (postId : Nat) (reason : RepostReason) (now : Nat)
    (s : SchedulerState) : SchedulerState × Option Post :=
  match findPost postId s.posts with
  | none => (s, none)
  | some orig =>
      let rootId := getRootOriginalId orig
      match findPost rootId s.posts with
      | none => (s, none)
      | some root =>
          if root.status ≠ .PUBLISHED ∧ reason = .manual then (s, none)
          else
            let st := getRepostStats rootId s.posts
            if 3 ≤ st.total then (s, none)
            else if 0 < st.pending ∧ reason = .auto then (s, none)
            else
              -- auto only: 60 days since the chain's last publish
              let baseDate :=
                match st.last with
                | some t => t
                | none =>
                    match root.published_at with
                    | some t => t
                    | none => root.created_at
              if reason = .auto ∧ now - baseDate < sixtyDays then (s, none)
              else
                let newPost : Post :=
                  { id := s.nextId
                    filename := root.filename
                    image_url := igUrlFor root.filename
                    caption := root.caption
                    status := .QUEUED
                    scheduled_at := now
                    created_at := now
                    is_repost := true
                    original_post_id := some rootId }
                ({ s with
                    posts :=
                      updateFirst rootId
                        (fun p => { p with repost_count := p.repost_count + 1 })
                        s.posts ++ [newPost]
                    nextId := s.nextId + 1 },
                  some newPost)

/-- `Scheduler.autoRepostTick()`; `none` models divergence of the final
`planPosts` call. -/
def autoRepostTick (now : Nat) (s : SchedulerState) : Option SchedulerState :=
  if ¬s.config.autoRepostEnabled then some s
  else
    let originals := s.posts.filter (fun p => ¬p.is_repost ∧ p.status = .PUBLISHED)
    let s1 := originals.foldl
      (fun st root => (scheduleRepostFromId root.id .auto now st).1) s
    if s1.posts.any (fun p => p.status = .QUEUED) then planPosts now s1
    else some s1

/-- Outcome of one platform's publish attempt as observed by `publishPost`
(the try-block around the platform calls either completes with a remote media
id or throws with a message). -/
inductive AttemptOutcome where
  | success (mediaId : String)
  | failure (msg : String)
deriving DecidableEq, Repr

/-- Is the outcome a success? -/
def AttemptOutcome.isSuccess : AttemptOutcome → Bool
  | .success _ => true
  | .failure _ => false

/-- `platforms.facebook && platforms.facebook.enabled`. -/
def fbEnabled (pl : PostPlatforms) : Bool :=
  match pl.facebook with
  | some fb => fb.enabled
  | none => false

/-- The platform selection of a post:
`(post as any).platforms || { instagram: true }`. -/
def platformsOf (p : Post) : PostPlatforms :=
  p.platforms.getD { instagram := true, facebook := none }

/-- `Publisher.publishPost` (env.ts lines 91-189, the multi-platform variant).
The network outcomes of the Instagram pipeline and of the Facebook relay call
are inputs (`igRes`, `fbRes`); `now` is the instant recorded on success.
Mirrors the source: status is set to PUBLISHING up front; an Instagram success
immediately records PUBLISHED/`published_at`/`ig_media_id`; Facebook success
only sets a local flag; ERROR (fixed message `"No platform succeeded"`) is set
only when neither flag is true. -/
def publishPost (post : Post) (now : Nat) (igRes fbRes : AttemptOutcome)
    (s : SchedulerState) : SchedulerState :=
  let s1 := updatePost post.id { status := some .PUBLISHING } s
  let pl := platformsOf post
  let igStep : SchedulerState × Bool :=
    if pl.instagram then
      match igRes with
      | .success mid =>
          (updatePost post.id
            { status := some .PUBLISHED
              published_at := some now
              ig_media_id := some mid } s1, true)
      | .failure _ => (s1, false)
    else (s1, false)
  let s2 := igStep.1
  let igOk := igStep.2
  let fbOk := fbEnabled pl && fbRes.isSuccess
  if ¬igOk ∧ ¬(fbEnabled pl ∧ fbOk) then
    updatePost post.id
      { status := some .ERROR, error_message := some "No platform succeeded" } s2
  else s2

/-- One `status_code` poll response of the remote platform
(`igWaitFinished`): `FINISHED`, `ERROR`, or anything else ("not ready"). -/
inductive IgPollStatus where
  | finished | errorStatus | notReady
deriving DecidableEq, Repr

/-- Result of the await-ready step. -/
inductive WaitResult where
  | ok | aborted | exhausted
deriving DecidableEq, Repr

/-- The `pRetry` loop of `igWaitFinished` over a response trace `resp`
(`resp i` is the `i`-th poll's answer): `FINISHED` resolves, `ERROR` throws
`AbortError` (no further attempts), anything else throws a transient error
that is retried while attempts remain.  Returns the result and the number of
polls performed. -/
def igWaitAux (resp : Nat → IgPollStatus) : Nat → Nat → WaitResult × Nat
  | 0, i => (.exhausted, i)
  | fuel + 1, i =>
      match resp i with
      | .finished => (.ok, i + 1)
      | .errorStatus => (.aborted, i + 1)
      | .notReady => igWaitAux resp fuel (i + 1)

/-- The await-ready attempt bound: `pRetry(..., { retries: 20 })` makes one
initial attempt plus up to 20 retries. -/
def igWaitAttempts : Nat := 21

/-- `igWaitFinished(creation_id, token)` over a response trace. -/
def igWaitFinished (resp : Nat → IgPollStatus) : WaitResult × Nat :=
  igWaitAux resp igWaitAttempts 0

/-- The Instagram leg of `publishPost` as a function of the await-ready
response trace, assuming the create and finalize steps succeed with media id
`mid`: an `ok` wait reaches `igPublish` and succeeds; an aborted or exhausted
wait throws into the catch block, failing the Instagram attempt. -/
def igOutcomeOfTrace (resp : Nat → IgPollStatus) (mid : String) : AttemptOutcome :=
  match (igWaitFinished resp).1 with
  | .ok => .success mid
  | .aborted => .failure "IG processing error"
  | .exhausted => .failure "not ready"

/-- A poll trace that is transiently "not ready" for the first `k` polls and
`FINISHED` from poll `k` on. -/
def transientTrace (k : Nat) : Nat → IgPollStatus :=
  fun i => if i < k then .notReady else .finished

/-- A poll trace answering a terminal `ERROR` on every poll (in particular on
the first). -/
def errorTrace : Nat → IgPollStatus := fun _ => .errorStatus

/-- The Post Store operations named by the reachability claims (queueFile,
planPosts, updatePost, removePost, scheduleRepostFromId, autoRepostTick),
each carrying the instant at which it is invoked where the source reads the
clock. -/
inductive Op where
  | queue (filename : String) (ov : QueueOverrides) (now : Nat)
  | plan (now : Nat)
  | update (id : Nat) (u : PostPatch)
  | remove (id : Nat)
  | repost (id : Nat) (reason : RepostReason) (now : Nat)
  | autoTick (now : Nat)
deriving DecidableEq, Repr

/-- Apply one operation; `none` models divergence (empty allowed-days
`preview`). -/
def applyOp (op : Op) (s : SchedulerState) : Option SchedulerState :=
  match op with
  | .queue f ov now => some (queueFile f ov now s).1
  | .plan now => planPosts now s
  | .update id u => some (updatePost id u s)
  | .remove id => some (removePost id s).1
  | .repost id r now => some (scheduleRepostFromId id r now s).1
  | .autoTick now => autoRepostTick now s

/-- Run a sequence of operations from a state. -/
def runOps : List Op → SchedulerState → Option SchedulerState
  | [], s => some s
  | op :: ops, s =>
      match applyOp op s with
      | none => none
      | some s' => runOps ops s'

/-- A store state is reachable when some operation sequence produces it from
the startup state. -/
def Reachable (s : SchedulerState) : Prop :=
  ∃ ops : List Op, runOps ops initialState = some s

/-- Number of repost children of root `r` present in the store. -/
def childCount (r : Nat) (posts : List Post) : Nat :=
  (posts.filter (fun p => p.is_repost ∧ p.original_post_id = some r)).length

/-- Number of pending (QUEUED/SCHEDULED/PUBLISHING) repost children of root
`r` present in the store. -/
def pendingChildCount (r : Nat) (posts : List Post) : Nat :=
  (posts.filter (fun p =>
    p.is_repost ∧ p.original_post_id = some r ∧ pendingStatus p.status)).length

/-- The sequence of timestamps handed out by one `planPosts` call to the
QUEUED posts, in store (creation) order: the companion of `assignTimes` that
records the assigned values instead of the updated posts. -/
def assignedValues (times : List Nat) (now : Nat) : List Post → Nat → List Nat
  | [], _ => []
  | p :: rest, i =>
      if p.status = .QUEUED then
        ((times.get? i).getD (now + (i + 1) * msPerHour)) :: assignedValues times now rest (i + 1)
      else assignedValues times now rest i

/-- Validity of a `ScheduleConfig`, as characterized by the spec's invariants
(section 3): a nonempty set of weekdays in `0..6`, `intervalHours ≥ 1`, and a
sorted list of in-range `HH:MM` times. -/
def ValidConfig (c : ScheduleConfig) : Prop :=
  c.days ≠ [] ∧ (∀ d ∈ c.days, d ≤ 6) ∧ 1 ≤ c.intervalHours ∧
    (∀ t ∈ c.times, t.hh ≤ 23 ∧ t.mm ≤ 59) ∧
    c.times.Pairwise (fun a b => hmOffset a ≤ hmOffset b)

/-! ### Concrete states and operation sequences used as test inputs -/

/-- `queueFile` overrides marking a post as already published (as the
draft-scheduling endpoint does with `status`/`scheduled_at` overrides). -/
def ovPublished : QueueOverrides :=
  { status := some .PUBLISHED, published_at := some 0 }

/-- Queue a published root, then four times (manual repost; delete the
repost child): each deletion resets the in-store child count that the
`totalReposts >= 3` guard inspects, so the root's `repost_count` keeps
growing. -/
def opsRepostLoop : List Op :=
  [.queue "a.jpg" ovPublished 0,
   .repost 0 .manual 1, .remove 1,
   .repost 0 .manual 2, .remove 2,
   .repost 0 .manual 3, .remove 3,
   .repost 0 .manual 4]

/-- Queue a published root, then request two manual reposts back to back. -/
def opsDoubleManual : List Op :=
  [.queue "a.jpg" ovPublished 0, .repost 0 .manual 1, .repost 0 .manual 2]

/-- A post whose platform selection disables Instagram and enables
Facebook. -/
def postFbOnly : Post :=
  { id := 0, filename := "f.jpg", image_url := "u", caption := "c"
    status := .SCHEDULED, scheduled_at := 0, created_at := 0
    platforms := some { instagram := false, facebook := some ⟨true, "pg"⟩ } }

/-- A one-post store holding `postFbOnly`. -/
def storeFbOnly : SchedulerState :=
  { posts := [postFbOnly], config := defaultConfig, nextId := 1 }

/-- An Instagram-only post (no explicit platform selection). -/
def postIgOnly : Post :=
  { id := 0, filename := "g.jpg", image_url := "u", caption := "c"
    status := .SCHEDULED, scheduled_at := 0, created_at := 0 }

/-- A one-post store holding `postIgOnly`. -/
def storeIgOnly : SchedulerState :=
  { posts := [postIgOnly], config := defaultConfig, nextId := 1 }

/-- A SCHEDULED post with the later slot, inserted first. -/
def postLate : Post :=
  { id := 0, filename := "late.jpg", image_url := "u", caption := "c"
    status := .SCHEDULED, scheduled_at := 2000, created_at := 0 }

/-- A SCHEDULED post with the earlier slot, inserted second. -/
def postEarly : Post :=
  { id := 1, filename := "early.jpg", image_url := "u", caption := "c"
    status := .SCHEDULED, scheduled_at := 1000, created_at := 0 }

/-- Two SCHEDULED posts inserted in reverse `scheduled_at` order. -/
def storeUnsorted : SchedulerState :=
  { posts := [postLate, postEarly]
    config := defaultConfig
    nextId := 2 }

/-- `queueFile` overrides carrying a status override, as the draft-scheduling
endpoint sends (`status: scheduleAt ? 'SCHEDULED' : 'QUEUED'`). -/
def ovScheduled : QueueOverrides :=
  { status := some .SCHEDULED, scheduled_at := some 5000 }

/-- A published root post used to exercise the repost guards. -/
def pendingRoot : Post :=
  { id := 0, filename := "p.jpg", image_url := "u", caption := "c"
    status := .PUBLISHED, scheduled_at := 0, created_at := 0
    published_at := some 0 }

/-- A pending (QUEUED) repost child of `pendingRoot`. -/
def pendingChild : Post :=
  { id := 1, filename := "p.jpg", image_url := "u", caption := "c"
    status := .QUEUED, scheduled_at := 10, created_at := 10
    is_repost := true, original_post_id := some 0 }

/-- A store in which `pendingRoot` already has one pending repost child. -/
def storePendingChild : SchedulerState :=
  { posts := [pendingRoot, pendingChild], config := defaultConfig, nextId := 2 }

/-- A root post published at instant 0 (day 0). -/
def postRootR : Post :=
  { id := 0, filename := "r.jpg", image_url := "u", caption := "c"
    status := .PUBLISHED, scheduled_at := 0, created_at := 0
    published_at := some 0 }

/-- A store holding only `postRootR`, with auto-repost enabled. -/
def storeRootR : SchedulerState :=
  { posts := [postRootR]
    config := { defaultConfig with autoRepostEnabled := true }
    nextId := 1 }

/-- Three posts queued in order a, b, c at instant `t`. -/
def queuedPostABC (t : Nat) : List Post :=
  [{ id := 0, filename := "a.jpg", image_url := "u", caption := "c"
     status := .QUEUED, scheduled_at := t, created_at := t },
   { id := 1, filename := "b.jpg", image_url := "u", caption := "c"
     status := .QUEUED, scheduled_at := t, created_at := t },
   { id := 2, filename := "c.jpg", image_url := "u", caption := "c"
     status := .QUEUED, scheduled_at := t, created_at := t }]

/-- The store of Scenario B: a, b, c queued in order at `t`, interval mode
with `intervalHours = 4` and all weekdays allowed (the default config). -/
def storeABC (t : Nat) : SchedulerState :=
  { posts := queuedPostABC t, config := defaultConfig, nextId := 3 }

/-! ## Theorems -/

/-! ### Generic store lemmas -/

/-- A membership in a list implies `contains`. -/
theorem contains_of_mem {a : Nat} {l : List Nat} (h : a ∈ l) : l.contains a = true :=
  List.elem_eq_true_of_mem h

/-- `contains` implies membership. -/
theorem mem_of_contains {a : Nat} {l : List Nat} (h : l.contains a = true) : a ∈ l :=
  List.mem_of_elem_eq_true h

/-- Finding by id after an in-place update of the same id. -/
theorem findPost_updateFirst (id : Nat) (f : Post → Post)
    (hf : ∀ p, (f p).id = p.id) :
    ∀ posts : List Post, findPost id (updateFirst id f posts) = (findPost id posts).map f := by
  intro posts
  induction posts with
  | nil => rfl
  | cons p ps ih =>
      by_cases hp : p.id = id
      · simp [findPost, updateFirst, List.find?, hp, hf]
      · simp [findPost, updateFirst, List.find?, hp] at ih ⊢
        exact ih

/-- `applyPatch` never changes the id. -/
theorem applyPatch_id (u : PostPatch) (p : Post) : (applyPatch u p).id = p.id := rfl

/-- Finding by id after `updatePost` on that id. -/
theorem findPost_updatePost (id : Nat) (u : PostPatch) (s : SchedulerState) :
    findPost id (updatePost id u s).posts = (findPost id s.posts).map (applyPatch u) :=
  findPost_updateFirst id (applyPatch u) (applyPatch_id u) s.posts

/-! ### Weekday arithmetic -/

/-- Weekdays are in `0..6`. -/
theorem wday_lt (t : Nat) : wday t < 7 := Nat.mod_lt _ (by norm_num)

/-- Advancing whole days shifts the weekday cyclically. -/
theorem wday_add_days (t k : Nat) : wday (t + k * msPerDay) = (wday t + k) % 7 := by
  unfold wday
  rw [Nat.add_mul_div_right _ _ (show 0 < msPerDay by decide)]
  omega

/-- With a nonempty set of valid weekdays, an allowed day occurs within any
window of 7 consecutive days. -/
theorem exists_allowed (days : List Nat) (hne : days ≠ [])
    (hle : ∀ d ∈ days, d ≤ 6) (t : Nat) :
    ∃ k, k < 7 ∧ days.contains (wday (t + k * msPerDay)) = true := by
  obtain ⟨d, hd⟩ := List.exists_mem_of_ne_nil days hne
  have hd6 : d ≤ 6 := hle d hd
  have hw : wday t < 7 := wday_lt t
  refine ⟨(d + 7 - wday t) % 7, by omega, ?_⟩
  have : wday (t + (d + 7 - wday t) % 7 * msPerDay) = d := by
    rw [wday_add_days]; omega
  rw [this]; exact contains_of_mem hd

/-- Any result of `nextAllowedDay` is at or after the start and on an allowed
weekday. -/
theorem nextAllowedDay_spec (days : List Nat) :
    ∀ fuel t r, nextAllowedDay days fuel t = some r →
      t ≤ r ∧ days.contains (wday r) = true := by
  intro fuel
  induction fuel with
  | zero => intro t r h; exact absurd h (by simp [nextAllowedDay])
  | succ n ih =>
      intro t r h
      by_cases hc : days.contains (wday t) = true
      · rw [show nextAllowedDay days (n + 1) t =
            if days.contains (wday t) = true then some t
            else nextAllowedDay days n (t + msPerDay) from rfl, if_pos hc] at h
        cases h; exact ⟨le_refl _, hc⟩
      · rw [show nextAllowedDay days (n + 1) t =
            if days.contains (wday t) = true then some t
            else nextAllowedDay days n (t + msPerDay) from rfl, if_neg hc] at h
        have := ih (t + msPerDay) r h
        exact ⟨by omega, this.2⟩

/-- `nextAllowedDay` succeeds whenever an allowed day lies within its fuel. -/
theorem nextAllowedDay_some (days : List Nat) :
    ∀ fuel t, (∃ k, k < fuel ∧ days.contains (wday (t + k * msPerDay)) = true) →
      ∃ r, nextAllowedDay days fuel t = some r := by
  intro fuel
  induction fuel with
  | zero => intro t ⟨k, hk, _⟩; omega
  | succ n ih =>
      intro t ⟨k, hk, hc⟩
      by_cases h0 : days.contains (wday t) = true
      · refine ⟨t, ?_⟩
        rw [show nextAllowedDay days (n + 1) t =
            if days.contains (wday t) = true then some t
            else nextAllowedDay days n (t + msPerDay) from rfl, if_pos h0]
      · have hk0 : k ≠ 0 := by
          intro h
          rw [h] at hc
          simp only [Nat.zero_mul, Nat.add_zero] at hc
          exact h0 hc
        obtain ⟨j, rfl⟩ := Nat.exists_eq_succ_of_ne_zero hk0
        have hshift : t + (j + 1) * msPerDay = (t + msPerDay) + j * msPerDay := by ring
        rw [hshift] at hc
        obtain ⟨r, hr⟩ := ih (t + msPerDay) ⟨j, by omega, hc⟩
        refine ⟨r, ?_⟩
        rw [show nextAllowedDay days (n + 1) t =
            if days.contains (wday t) = true then some t
            else nextAllowedDay days n (t + msPerDay) from rfl, if_neg h0]
        exact hr

/-! ### Interval-mode preview -/

/-- Everything the interval loop guarantees about a successful run: the result
has exactly `count` entries, is non-decreasing, and every entry either was in
the accumulator already or is at/after the cursor and on an allowed weekday. -/
theorem intervalAux_spec (days : List Nat) (hours count : Nat) :
    ∀ fuel cursor out res,
      previewIntervalAux days hours count fuel cursor out = some res →
      out.length ≤ count → List.Pairwise (· ≤ ·) out → (∀ x ∈ out, x ≤ cursor) →
      res.length = count ∧ List.Pairwise (· ≤ ·) res ∧
        (∀ x ∈ res, x ∈ out ∨ (cursor ≤ x ∧ days.contains (wday x) = true)) := by
  intro fuel
  induction fuel with
  | zero =>
      intro cursor out res heq hlen hpw hub
      by_cases hc : count ≤ out.length
      · simp [previewIntervalAux, hc] at heq
        subst heq
        exact ⟨by omega, hpw, fun x hx => Or.inl hx⟩
      · simp [previewIntervalAux, hc] at heq
  | succ n ih =>
      intro cursor out res heq hlen hpw hub
      by_cases hcnt : out.length < count
      · simp only [previewIntervalAux, if_pos hcnt] at heq
        cases hna : nextAllowedDay days 7 (cursor + hours * msPerHour) with
        | none => rw [hna] at heq; cases heq
        | some c2 =>
            rw [hna] at heq
            have hc2 : cursor ≤ c2 := by
              have := (nextAllowedDay_spec days 7 _ c2 hna).1
              omega
            by_cases hcont : days.contains (wday cursor) = true
            · rw [if_pos hcont] at heq
              have hlen' : (out ++ [cursor]).length ≤ count := by
                simp; omega
              have hpw' : List.Pairwise (· ≤ ·) (out ++ [cursor]) := by
                rw [List.pairwise_append]
                exact ⟨hpw, List.pairwise_singleton _ _,
                  fun x hx y hy => by simp at hy; subst hy; exact hub x hx⟩
              have hub' : ∀ x ∈ out ++ [cursor], x ≤ c2 := by
                intro x hx
                rcases List.mem_append.1 hx with h | h
                · exact le_trans (hub x h) hc2
                · simp at h; omega
              obtain ⟨h1, h2, h3⟩ := ih c2 (out ++ [cursor]) res heq hlen' hpw' hub'
              refine ⟨h1, h2, fun x hx => ?_⟩
              rcases h3 x hx with h | h
              · rcases List.mem_append.1 h with h | h
                · exact Or.inl h
                · simp at h; subst h; exact Or.inr ⟨le_refl _, hcont⟩
              · exact Or.inr ⟨le_trans hc2 h.1, h.2⟩
            · rw [if_neg hcont] at heq
              obtain ⟨h1, h2, h3⟩ := ih c2 out res heq (by omega) hpw
                (fun x hx => le_trans (hub x hx) hc2)
              refine ⟨h1, h2, fun x hx => ?_⟩
              rcases h3 x hx with h | h
              · exact Or.inl h
              · exact Or.inr ⟨le_trans hc2 h.1, h.2⟩
      · simp only [previewIntervalAux, if_neg hcnt] at heq
        cases heq
        exact ⟨by omega, hpw, fun x hx => Or.inl hx⟩

/-- The interval loop terminates once the cursor sits on an allowed weekday
and the fuel covers the missing entries. -/
theorem intervalAux_some (days : List Nat) (hne : days ≠ [])
    (hle : ∀ d ∈ days, d ≤ 6) (hours count : Nat) :
    ∀ fuel cursor out, days.contains (wday cursor) = true →
      count ≤ out.length + fuel →
      ∃ res, previewIntervalAux days hours count fuel cursor out = some res := by
  intro fuel
  induction fuel with
  | zero =>
      intro cursor out _ hcount
      exact ⟨out, by simp [previewIntervalAux]; omega⟩
  | succ n ih =>
      intro cursor out hcur hcount
      by_cases hcnt : out.length < count
      · obtain ⟨k, hk7, hkc⟩ := exists_allowed days hne hle (cursor + hours * msPerHour)
        obtain ⟨c2, hc2⟩ := nextAllowedDay_some days 7 _ ⟨k, hk7, hkc⟩
        have hc2c : days.contains (wday c2) = true :=
          (nextAllowedDay_spec days 7 _ c2 hc2).2
        obtain ⟨res, hres⟩ := ih c2 (out ++ [cursor]) hc2c (by simp; omega)
        exact ⟨res, by simp only [previewIntervalAux, if_pos hcnt, if_pos hcur, hc2, hres]⟩
      · exact ⟨out, by simp [previewIntervalAux, hcnt]⟩

/-! ### Times-mode preview -/

/-- Midnight stays fixed when re-normalizing one day later. -/
theorem startOfDay_idem_add (c : Nat) :
    startOfDay (startOfDay c + msPerDay) = startOfDay c + msPerDay := by
  unfold startOfDay
  rw [show c / msPerDay * msPerDay + msPerDay = (c / msPerDay + 1) * msPerDay by ring,
    Nat.mul_div_cancel _ (show 0 < msPerDay by decide)]

/-- Every instant is before the next midnight. -/
theorem lt_startOfDay_add (t : Nat) : t < startOfDay t + msPerDay := by
  unfold startOfDay msPerDay
  omega

/-- A same-day offset does not change the weekday. -/
theorem wday_startOfDay_add (c off : Nat) (hoff : off < msPerDay) :
    wday (startOfDay c + off) = wday c := by
  unfold wday startOfDay
  rw [show c / msPerDay * msPerDay + off = msPerDay * (c / msPerDay) + off by ring,
    Nat.mul_add_div (show 0 < msPerDay by decide), Nat.div_eq_of_lt hoff]

/-- `pushTimes` only appends. -/
theorem pushTimes_length_mono (start count dayStart : Nat) :
    ∀ ts out, out.length ≤ (pushTimes start count dayStart ts out).length := by
  intro ts
  induction ts with
  | nil => intro out; simp [pushTimes]
  | cons t rest ih =>
      intro out
      simp only [pushTimes]
      by_cases hp : start ≤ dayStart + hmOffset t
      · rw [if_pos hp]
        by_cases hful : count ≤ (out ++ [dayStart + hmOffset t]).length
        · rw [if_pos hful]; simp
        · rw [if_neg hful]
          have := ih (out ++ [dayStart + hmOffset t])
          simp at this ⊢
          omega
      · rw [if_neg hp]
        by_cases hful : count ≤ out.length
        · rw [if_pos hful]
        · rw [if_neg hful]; exact ih out

/-- With a nonempty times list and `start ≤ dayStart`, `pushTimes` grows a
not-yet-full accumulator by at least one entry. -/
theorem pushTimes_progress (start count dayStart : Nat)
    (ts : List HM) (hts : ts ≠ []) (hsd : start ≤ dayStart)
    (out : List Nat) (hcnt : out.length < count) :
    out.length + 1 ≤ (pushTimes start count dayStart ts out).length := by
  cases ts with
  | nil => exact absurd rfl hts
  | cons t rest =>
      simp only [pushTimes]
      have hp : start ≤ dayStart + hmOffset t := by omega
      rw [if_pos hp]
      by_cases hful : count ≤ (out ++ [dayStart + hmOffset t]).length
      · rw [if_pos hful]; simp
      · rw [if_neg hful]
        have := pushTimes_length_mono start count dayStart rest (out ++ [dayStart + hmOffset t])
        simp at this ⊢
        omega

/-- Every entry produced by `pushTimes` was in the accumulator or is a
candidate `dayStart + offset` at or after `start`. -/
theorem pushTimes_mem (start count dayStart : Nat) :
    ∀ ts out x, x ∈ pushTimes start count dayStart ts out →
      x ∈ out ∨ (start ≤ x ∧ ∃ t ∈ ts, x = dayStart + hmOffset t) := by
  intro ts
  induction ts with
  | nil => intro out x hx; exact Or.inl hx
  | cons t rest ih =>
      intro out x hx
      simp only [pushTimes] at hx
      by_cases hp : start ≤ dayStart + hmOffset t
      · rw [if_pos hp] at hx
        by_cases hful : count ≤ (out ++ [dayStart + hmOffset t]).length
        · rw [if_pos hful] at hx
          rcases List.mem_append.1 hx with h | h
          · exact Or.inl h
          · simp at h
            exact Or.inr ⟨by omega, t, by simp, h⟩
        · rw [if_neg hful] at hx
          rcases ih _ x hx with h | ⟨hs, t', ht', hx'⟩
          · rcases List.mem_append.1 h with h | h
            · exact Or.inl h
            · simp at h
              exact Or.inr ⟨by omega, t, by simp, h⟩
          · exact Or.inr ⟨hs, t', by simp [ht'], hx'⟩
      · rw [if_neg hp] at hx
        by_cases hful : count ≤ out.length
        · rw [if_pos hful] at hx; exact Or.inl hx
        · rw [if_neg hful] at hx
          rcases ih _ x hx with h | ⟨hs, t', ht', hx'⟩
          · exact Or.inl h
          · exact Or.inr ⟨hs, t', by simp [ht'], hx'⟩

/-- `pushTimes` keeps the accumulator sorted when the times are sorted and all
candidates of the day dominate the accumulated entries. -/
theorem pushTimes_pairwise (start count dayStart : Nat) :
    ∀ ts out, List.Pairwise (fun a b => hmOffset a ≤ hmOffset b) ts →
      List.Pairwise (· ≤ ·) out →
      (∀ x ∈ out, ∀ t ∈ ts, x ≤ dayStart + hmOffset t) →
      List.Pairwise (· ≤ ·) (pushTimes start count dayStart ts out) := by
  intro ts
  induction ts with
  | nil => intro out _ hout _; exact hout
  | cons t rest ih =>
      intro out hts hout hdom
      simp only [pushTimes]
      rcases List.pairwise_cons.1 hts with ⟨hthead, htrest⟩
      by_cases hp : start ≤ dayStart + hmOffset t
      · rw [if_pos hp]
        have hout' : List.Pairwise (· ≤ ·) (out ++ [dayStart + hmOffset t]) := by
          rw [List.pairwise_append]
          exact ⟨hout, List.pairwise_singleton _ _,
            fun x hx y hy => by simp at hy; subst hy; exact hdom x hx t (by simp)⟩
        by_cases hful : count ≤ (out ++ [dayStart + hmOffset t]).length
        · rw [if_pos hful]; exact hout'
        · rw [if_neg hful]
          refine ih _ htrest hout' ?_
          intro x hx t' ht'
          rcases List.mem_append.1 hx with h | h
          · exact hdom x h t' (by simp [ht'])
          · simp at h
            subst h
            have := hthead t' ht'
            omega
      · rw [if_neg hp]
        by_cases hful : count ≤ out.length
        · rw [if_pos hful]; exact hout
        · rw [if_neg hful]
          exact ih _ htrest hout (fun x hx t' ht' => hdom x hx t' (by simp [ht']))

/-- One unfolding step of the times-mode loop. -/
theorem timesAux_step (days : List Nat) (times : List HM) (start count fuel cursor : Nat)
    (out : List Nat) :
    previewTimesAux days times start count (fuel + 1) cursor out =
      if out.length < count then
        previewTimesAux days times start count fuel (startOfDay cursor + msPerDay)
          (if days.contains (wday cursor) = true then
            pushTimes start count (startOfDay cursor) times out
          else out)
      else some (out.take count) := rfl

/-- A successful times-mode run returns exactly `count` entries. -/
theorem timesAux_length (days : List Nat) (times : List HM) (start count : Nat) :
    ∀ fuel cursor out res,
      previewTimesAux days times start count fuel cursor out = some res →
      res.length = count := by
  intro fuel
  induction fuel with
  | zero => intro cursor out res h; exact absurd h (by simp [previewTimesAux])
  | succ n ih =>
      intro cursor out res h
      simp only [previewTimesAux] at h
      by_cases hcnt : out.length < count
      · rw [if_pos hcnt] at h
        exact ih _ _ _ h
      · rw [if_neg hcnt] at h
        cases h
        simp
        omega

/-- Every entry of a successful times-mode run is at/after `start` and on an
allowed weekday (given in-range time-of-day offsets). -/
theorem timesAux_mem (days : List Nat) (times : List HM) (start count : Nat)
    (htv : ∀ t ∈ times, hmOffset t < msPerDay) :
    ∀ fuel cursor out res,
      previewTimesAux days times start count fuel cursor out = some res →
      (∀ x ∈ out, start ≤ x ∧ days.contains (wday x) = true) →
      ∀ x ∈ res, start ≤ x ∧ days.contains (wday x) = true := by
  intro fuel
  induction fuel with
  | zero => intro cursor out res h; exact absurd h (by simp [previewTimesAux])
  | succ n ih =>
      intro cursor out res h hout
      simp only [previewTimesAux] at h
      by_cases hcnt : out.length < count
      · rw [if_pos hcnt] at h
        by_cases hcont : days.contains (wday cursor) = true
        · rw [if_pos hcont] at h
          refine ih _ _ _ h ?_
          intro x hx
          rcases pushTimes_mem start count (startOfDay cursor) times out x hx with
            hold | ⟨hs, t, ht, rfl⟩
          · exact hout x hold
          · refine ⟨hs, ?_⟩
            rw [wday_startOfDay_add _ _ (htv t ht)]
            exact hcont
        · rw [if_neg hcont] at h
          exact ih _ _ _ h hout
      · rw [if_neg hcnt] at h
        cases h
        intro x hx
        exact hout x (List.take_subset _ _ hx)

/-- A successful times-mode run is sorted (given sorted, in-range times). -/
theorem timesAux_pairwise (days : List Nat) (times : List HM) (start count : Nat)
    (htv : ∀ t ∈ times, hmOffset t < msPerDay)
    (hsorted : List.Pairwise (fun a b => hmOffset a ≤ hmOffset b) times) :
    ∀ fuel cursor out res,
      previewTimesAux days times start count fuel cursor out = some res →
      List.Pairwise (· ≤ ·) out → (∀ x ∈ out, x < startOfDay cursor) →
      List.Pairwise (· ≤ ·) res := by
  intro fuel
  induction fuel with
  | zero => intro cursor out res h; exact absurd h (by simp [previewTimesAux])
  | succ n ih =>
      intro cursor out res h hpw hub
      simp only [previewTimesAux] at h
      by_cases hcnt : out.length < count
      · rw [if_pos hcnt] at h
        by_cases hcont : days.contains (wday cursor) = true
        · rw [if_pos hcont] at h
          refine ih _ _ _ h ?_ ?_
          · exact pushTimes_pairwise start count (startOfDay cursor) times out hsorted hpw
              (fun x hx t _ => by have := hub x hx; omega)
          · intro x hx
            rw [startOfDay_idem_add]
            rcases pushTimes_mem start count (startOfDay cursor) times out x hx with
              hold | ⟨_, t, ht, rfl⟩
            · have := hub x hold; omega
            · have := htv t ht; omega
        · rw [if_neg hcont] at h
          refine ih _ _ _ h hpw ?_
          intro x hx
          rw [startOfDay_idem_add]
          have := hub x hx
          omega
      · rw [if_neg hcnt] at h
        cases h
        exact hpw.sublist (List.take_sublist _ _)

/-- The times-mode loop terminates: once the cursor is a midnight at/after
`start`, seven days of fuel per missing entry suffice. -/
theorem timesAux_term (days : List Nat) (times : List HM) (start count : Nat)
    (hne : days ≠ []) (hld : ∀ d ∈ days, d ≤ 6) (hts : times ≠ []) :
    ∀ fuel cursor out, startOfDay cursor = cursor → start ≤ cursor →
      ((count ≤ out.length ∧ 1 ≤ fuel) ∨
        (out.length < count ∧ ∃ k, days.contains (wday (cursor + k * msPerDay)) = true ∧
          k + 2 + 7 * (count - out.length - 1) ≤ fuel)) →
      ∃ res, previewTimesAux days times start count fuel cursor out = some res := by
  intro fuel
  induction fuel with
  | zero =>
      intro cursor out _ _ hyp
      rcases hyp with ⟨_, h⟩ | ⟨_, _, _, h⟩ <;> omega
  | succ n ih =>
      intro cursor out hday hstart hyp
      rcases hyp with ⟨hcount, _⟩ | ⟨hcnt, k, hkc, hbound⟩
      · refine ⟨out.take count, ?_⟩
        simp only [previewTimesAux]
        rw [if_neg (by omega)]
      · by_cases hcont : days.contains (wday cursor) = true
        · have hprog : out.length + 1 ≤
              (pushTimes start count (startOfDay cursor) times out).length := by
            refine pushTimes_progress start count (startOfDay cursor) times hts ?_ out hcnt
            rw [hday]; exact hstart
          have hday' : startOfDay (startOfDay cursor + msPerDay) =
              startOfDay cursor + msPerDay := startOfDay_idem_add cursor
          have hstart' : start ≤ startOfDay cursor + msPerDay := by rw [hday]; omega
          have hstep : ∃ res, previewTimesAux days times start count n
              (startOfDay cursor + msPerDay)
              (pushTimes start count (startOfDay cursor) times out) = some res := by
            refine ih _ _ hday' hstart' ?_
            by_cases hfull : count ≤ (pushTimes start count (startOfDay cursor) times out).length
            · exact Or.inl ⟨hfull, by omega⟩
            · obtain ⟨k', hk'7, hk'c⟩ :=
                exists_allowed days hne hld (startOfDay cursor + msPerDay)
              exact Or.inr ⟨by omega, k', hk'c, by omega⟩
          obtain ⟨res, hres⟩ := hstep
          refine ⟨res, ?_⟩
          simp only [previewTimesAux]
          rw [if_pos hcnt, if_pos hcont]
          exact hres
        · have hk0 : k ≠ 0 := by
            intro hk
            rw [hk] at hkc
            simp only [Nat.zero_mul, Nat.add_zero] at hkc
            exact hcont hkc
          obtain ⟨j, rfl⟩ := Nat.exists_eq_succ_of_ne_zero hk0
          have hshift : (startOfDay cursor + msPerDay) + j * msPerDay =
              cursor + (j + 1) * msPerDay := by rw [hday]; ring
          have hstep : ∃ res, previewTimesAux days times start count n
              (startOfDay cursor + msPerDay) out = some res := by
            refine ih _ _ (startOfDay_idem_add cursor) (by rw [hday]; omega) ?_
            refine Or.inr ⟨hcnt, j, ?_, by omega⟩
            rw [hshift]
            exact hkc
          obtain ⟨res, hres⟩ := hstep
          refine ⟨res, ?_⟩
          simp only [previewTimesAux]
          rw [if_pos hcnt, if_neg hcont]
          exact hres

/-! ### Top-level preview properties -/

/-- The effective times list is never empty. -/
theorem effectiveTimes_ne_nil (ts : List HM) : effectiveTimes ts ≠ [] := by
  unfold effectiveTimes
  by_cases h : ts = []
  · rw [if_pos h]; decide
  · rw [if_neg h]; exact h

/-- In-range configured times give in-range effective times. -/
theorem effectiveTimes_offsets (ts : List HM) (h : ∀ t ∈ ts, t.hh ≤ 23 ∧ t.mm ≤ 59) :
    ∀ t ∈ effectiveTimes ts, hmOffset t < msPerDay := by
  unfold effectiveTimes
  by_cases hn : ts = []
  · rw [if_pos hn]; decide
  · rw [if_neg hn]
    intro t ht
    have := h t ht
    unfold hmOffset msPerHour msPerMinute msPerDay
    omega

/-- Sorted configured times give sorted effective times. -/
theorem effectiveTimes_sorted (ts : List HM)
    (h : List.Pairwise (fun a b => hmOffset a ≤ hmOffset b) ts) :
    List.Pairwise (fun a b => hmOffset a ≤ hmOffset b) (effectiveTimes ts) := by
  unfold effectiveTimes
  by_cases hn : ts = []
  · rw [if_pos hn]; decide
  · rw [if_neg hn]; exact h

/-- Whenever `preview` returns, it returns exactly `count` timestamps. -/
theorem preview_length (cfg : ScheduleConfig) (start count : Nat) (res : List Nat)
    (h : preview cfg start count = some res) : res.length = count := by
  unfold preview at h
  cases hm : cfg.mode with
  | interval =>
      rw [hm] at h
      exact (intervalAux_spec cfg.days (max 1 cfg.intervalHours) count (count + 1)
        start [] res h (by simp) (by simp) (by simp)).1
  | times =>
      rw [hm] at h
      exact timesAux_length cfg.days (effectiveTimes cfg.times) start count _ _ _ _ h

/-- Whenever `preview` returns under a valid configuration, every timestamp is
at/after the start instant and on an allowed weekday. -/
theorem preview_mem (cfg : ScheduleConfig) (start count : Nat) (res : List Nat)
    (hv : ValidConfig cfg) (h : preview cfg start count = some res) :
    ∀ x ∈ res, start ≤ x ∧ cfg.days.contains (wday x) = true := by
  obtain ⟨_, _, _, htv, _⟩ := hv
  unfold preview at h
  cases hm : cfg.mode with
  | interval =>
      rw [hm] at h
      intro x hx
      rcases (intervalAux_spec cfg.days (max 1 cfg.intervalHours) count (count + 1)
        start [] res h (by simp) (by simp) (by simp)).2.2 x hx with h0 | h0
      · simp at h0
      · exact h0
  | times =>
      rw [hm] at h
      exact timesAux_mem cfg.days (effectiveTimes cfg.times) start count
        (effectiveTimes_offsets cfg.times htv) _ _ _ _ h (by simp)

/-- Whenever `preview` returns under a valid configuration, the timestamps are
non-decreasing. -/
theorem preview_pairwise (cfg : ScheduleConfig) (start count : Nat) (res : List Nat)
    (hv : ValidConfig cfg) (h : preview cfg start count = some res) :
    List.Pairwise (· ≤ ·) res := by
  obtain ⟨_, _, _, htv, hsort⟩ := hv
  unfold preview at h
  cases hm : cfg.mode with
  | interval =>
      rw [hm] at h
      exact (intervalAux_spec cfg.days (max 1 cfg.intervalHours) count (count + 1)
        start [] res h (by simp) (by simp) (by simp)).2.1
  | times =>
      rw [hm] at h
      exact timesAux_pairwise cfg.days (effectiveTimes cfg.times) start count
        (effectiveTimes_offsets cfg.times htv) (effectiveTimes_sorted cfg.times hsort)
        _ _ _ _ h (by simp) (by simp)

/-- `preview` terminates (returns `some`) whenever the allowed-days set is a
nonempty subset of `0..6`, in both modes. -/
theorem preview_some (cfg : ScheduleConfig) (start count : Nat)
    (hne : cfg.days ≠ []) (hld : ∀ d ∈ cfg.days, d ≤ 6) :
    ∃ res, preview cfg start count = some res := by
  unfold preview
  cases hm : cfg.mode with
  | interval =>
      by_cases hc : cfg.days.contains (wday start) = true
      · exact intervalAux_some cfg.days hne hld (max 1 cfg.intervalHours) count
          (count + 1) start [] hc (by simp)
      · cases count with
        | zero =>
            refine ⟨[], ?_⟩
            simp [previewIntervalAux]
        | succ m =>
            obtain ⟨k, hk7, hkc⟩ := exists_allowed cfg.days hne hld
              (start + max 1 cfg.intervalHours * msPerHour)
            obtain ⟨c2, hc2⟩ := nextAllowedDay_some cfg.days 7 _ ⟨k, hk7, hkc⟩
            have hc2c : cfg.days.contains (wday c2) = true :=
              (nextAllowedDay_spec cfg.days 7 _ c2 hc2).2
            obtain ⟨res, hres⟩ := intervalAux_some cfg.days hne hld
              (max 1 cfg.intervalHours) (m + 1) (m + 1) c2 [] hc2c (by simp)
            refine ⟨res, ?_⟩
            simp only [previewIntervalAux]
            rw [if_pos (by simp : ([] : List Nat).length < m + 1), if_neg hc, hc2]
            exact hres
  | times =>
      cases count with
      | zero =>
          refine ⟨[], ?_⟩
          simp [previewTimesAux]
      | succ m =>
          have hq : (0 : Nat) < m + 1 := by omega
          have hcur1 : startOfDay (startOfDay start + msPerDay) =
              startOfDay start + msPerDay := startOfDay_idem_add start
          have hstart1 : start ≤ startOfDay start + msPerDay :=
            le_of_lt (lt_startOfDay_add start)
          by_cases hcont : cfg.days.contains (wday start) = true
          · set out1 := pushTimes start (m + 1) (startOfDay start)
              (effectiveTimes cfg.times) [] with hout1
            have hstep : ∃ res, previewTimesAux cfg.days (effectiveTimes cfg.times)
                start (m + 1) (7 * (m + 1) + 7) (startOfDay start + msPerDay) out1 =
                some res := by
              refine timesAux_term cfg.days (effectiveTimes cfg.times) start (m + 1)
                hne hld (effectiveTimes_ne_nil cfg.times) _ _ _ hcur1 hstart1 ?_
              by_cases hfull : m + 1 ≤ out1.length
              · exact Or.inl ⟨hfull, by omega⟩
              · obtain ⟨k, hk7, hkc⟩ :=
                  exists_allowed cfg.days hne hld (startOfDay start + msPerDay)
                exact Or.inr ⟨by omega, k, hkc, by omega⟩
            obtain ⟨res, hres⟩ := hstep
            refine ⟨res, ?_⟩
            rw [show 7 * (m + 1) + 8 = (7 * (m + 1) + 7) + 1 by omega, timesAux_step,
              if_pos (by simp : ([] : List Nat).length < m + 1), if_pos hcont]
            exact hres
          · have hstep : ∃ res, previewTimesAux cfg.days (effectiveTimes cfg.times)
                start (m + 1) (7 * (m + 1) + 7) (startOfDay start + msPerDay) [] =
                some res := by
              refine timesAux_term cfg.days (effectiveTimes cfg.times) start (m + 1)
                hne hld (effectiveTimes_ne_nil cfg.times) _ _ _ hcur1 hstart1 ?_
              obtain ⟨k, hk7, hkc⟩ :=
                exists_allowed cfg.days hne hld (startOfDay start + msPerDay)
              exact Or.inr ⟨by simp, k, hkc, by simp; omega⟩
            obtain ⟨res, hres⟩ := hstep
            refine ⟨res, ?_⟩
            rw [show 7 * (m + 1) + 8 = (7 * (m + 1) + 7) + 1 by omega, timesAux_step,
              if_pos (by simp : ([] : List Nat).length < m + 1), if_neg hcont]
            exact hres

/-! ### planPosts assignment -/

/-- Pairing the planned posts with the original posts and keeping the pairs at
originally-QUEUED positions reads back exactly the assigned timestamps. -/
theorem assignTimes_zip (times : List Nat) (now : Nat) :
    ∀ (posts : List Post) (i : Nat),
      (((assignTimes times now posts i).zip posts).filter
        (fun pq => pq.2.status = .QUEUED)).map (fun pq => pq.1.scheduled_at) =
      assignedValues times now posts i := by
  intro posts
  induction posts with
  | nil => intro i; rfl
  | cons p rest ih =>
      intro i
      by_cases hq : p.status = .QUEUED
      · simp only [assignTimes, assignedValues, if_pos hq, List.zip_cons_cons,
          List.filter_cons, List.map_cons]
        rw [if_pos (by simp [hq])]
        simp only [List.map_cons]
        rw [ih (i + 1)]
      · simp only [assignTimes, assignedValues, if_neg hq, List.zip_cons_cons,
          List.filter_cons]
        rw [if_neg (by simp [hq])]
        exact ih i

/-- When the handed-out list covers all remaining QUEUED posts, the assigned
values are the corresponding slice of it (the fallback is never used). -/
theorem assignedValues_slice (times : List Nat) (now : Nat) :
    ∀ (posts : List Post) (i : Nat),
      (posts.filter (fun p => p.status = .QUEUED)).length + i ≤ times.length →
      assignedValues times now posts i =
        (times.drop i).take (posts.filter (fun p => p.status = .QUEUED)).length := by
  intro posts
  induction posts with
  | nil => intro i _; simp [assignedValues]
  | cons p rest ih =>
      intro i hlen
      by_cases hq : p.status = .QUEUED
      · rw [List.filter_cons_of_pos (by simp [hq])] at hlen ⊢
        simp only [List.length_cons] at hlen ⊢
        have hi : i < times.length := by omega
        have hdrop : times.drop i = times[i] :: times.drop (i + 1) :=
          List.drop_eq_getElem_cons hi
        simp only [assignedValues, if_pos hq]
        rw [hdrop, List.take_succ_cons, ih (i + 1) (by omega)]
        have : times.get? i = some times[i] := by
          rw [List.get?_eq_getElem?, List.getElem?_eq_getElem hi]
        rw [this]
        rfl
      · rw [List.filter_cons_of_neg (by simp [hq])] at hlen ⊢
        simp only [assignedValues, if_neg hq]
        exact ih i hlen

/-- The timestamps a successful `planPosts` hands to the originally-QUEUED
posts, in store order, are exactly the `preview` sequence (in particular
non-decreasing for a valid configuration). -/
theorem planPosts_assigned (now : Nat) (s s' : SchedulerState)
    (h : planPosts now s = some s') :
    (((s'.posts.zip s.posts).filter (fun pq => pq.2.status = .QUEUED)).map
        (fun pq => pq.1.scheduled_at) = [] ∧
      (s.posts.filter (fun p => p.status = .QUEUED)).length = 0) ∨
    (∃ times, preview s.config now
        (s.posts.filter (fun p => p.status = .QUEUED)).length = some times ∧
      ((s'.posts.zip s.posts).filter (fun pq => pq.2.status = .QUEUED)).map
        (fun pq => pq.1.scheduled_at) = times) := by
  unfold planPosts at h
  by_cases h0 : (s.posts.filter (fun p => p.status = .QUEUED)).length = 0
  · rw [if_pos h0] at h
    cases h
    left
    refine ⟨?_, h0⟩
    have hnil : s.posts.filter (fun p => p.status = .QUEUED) = [] :=
      List.eq_nil_of_length_eq_zero h0
    have hnone : ∀ p ∈ s.posts, ¬(p.status = .QUEUED) := by
      intro p hp hq
      have : p ∈ s.posts.filter (fun p => p.status = .QUEUED) :=
        List.mem_filter.2 ⟨hp, by simp [hq]⟩
      rw [hnil] at this
      exact absurd this (List.not_mem_nil p)
    rw [List.map_eq_nil_iff, List.filter_eq_nil_iff]
    intro pq hpq
    have := List.of_mem_zip hpq
    have hns := hnone pq.2 this.2
    simp only [decide_eq_true_eq]
    exact hns
  · rw [if_neg h0] at h
    cases hp : preview s.config now (s.posts.filter (fun p => p.status = .QUEUED)).length with
    | none => rw [hp] at h; cases h
    | some times =>
        rw [hp] at h
        cases h
        right
        refine ⟨times, rfl, ?_⟩
        have hlen := preview_length _ _ _ _ hp
        rw [assignTimes_zip, assignedValues_slice times now s.posts 0 (by omega)]
        simp [hlen]

/-! ### Repost-chain bookkeeping -/

/-- Appending one post changes a root's child count by its child flag. -/
theorem childCount_append (r : Nat) (l : List Post) (p : Post) :
    childCount r (l ++ [p]) =
      childCount r l + (if p.is_repost ∧ p.original_post_id = some r then 1 else 0) := by
  by_cases h : p.is_repost ∧ p.original_post_id = some r <;>
    simp [childCount, List.filter_append, h]

/-- An in-place update that keeps the repost identity fields keeps every
root's child count. -/
theorem childCount_updateFirst (r : Nat) (f : Post → Post)
    (hf : ∀ p, (f p).is_repost = p.is_repost ∧ (f p).original_post_id = p.original_post_id) :
    ∀ (l : List Post) (id : Nat), childCount r (updateFirst id f l) = childCount r l := by
  intro l
  induction l with
  | nil => intro id; rfl
  | cons p ps ih =>
      intro id
      have hih := ih id
      unfold childCount at hih ⊢
      simp at hih
      by_cases hid : p.id = id
      · simp only [updateFirst, if_pos hid]
        by_cases hp : p.is_repost ∧ p.original_post_id = some r
        · simp [List.filter_cons, hp, (hf p).1, (hf p).2]
        · simp [List.filter_cons, hp, (hf p).1, (hf p).2]
      · simp only [updateFirst, if_neg hid]
        by_cases hp : p.is_repost ∧ p.original_post_id = some r <;>
          simp [List.filter_cons, hp, hih]

/-- Child counts only shrink along sublists. -/
theorem childCount_le_of_sublist (r : Nat) {l1 l2 : List Post} (h : l1.Sublist l2) :
    childCount r l1 ≤ childCount r l2 :=
  (h.filter _).length_le

/-- Removing a post yields a sublist of the store. -/
theorem removeFirst_sublist (id : Nat) : ∀ l : List Post, (removeFirst id l).1.Sublist l := by
  intro l
  induction l with
  | nil => simp [removeFirst]
  | cons p ps ih =>
      by_cases hid : p.id = id
      · simpa [removeFirst, hid] using List.sublist_cons_self p ps
      · simpa [removeFirst, hid] using ih.cons₂ p

/-- `assignTimes` keeps every root's child count. -/
theorem childCount_assignTimes (r : Nat) (times : List Nat) (now : Nat) :
    ∀ (l : List Post) (i : Nat), childCount r (assignTimes times now l i) = childCount r l := by
  intro l
  induction l with
  | nil => intro i; rfl
  | cons p ps ih =>
      intro i
      have hih1 := ih (i + 1)
      have hih2 := ih i
      unfold childCount at hih1 hih2 ⊢
      simp at hih1 hih2
      by_cases hq : p.status = .QUEUED
      · simp only [assignTimes, if_pos hq]
        by_cases hp : p.is_repost ∧ p.original_post_id = some r <;>
          simp [List.filter_cons, hp, hih1]
      · simp only [assignTimes, if_neg hq]
        by_cases hp : p.is_repost ∧ p.original_post_id = some r <;>
          simp [List.filter_cons, hp, hih2]

/-- The `total` accumulated by `getRepostStats` is exactly the in-store child
count of the chain root. -/
theorem getRepostStats_total (rootId : Nat) :
    ∀ (posts : List Post) (acc : RepostStats),
      (posts.foldl (statsStep rootId) acc).total = acc.total + childCount rootId posts := by
  intro posts
  induction posts with
  | nil => intro acc; simp [childCount]
  | cons p ps ih =>
      intro acc
      rw [List.foldl_cons, ih]
      have hstep : (statsStep rootId acc p).total =
          acc.total + (if p.is_repost ∧ p.original_post_id = some rootId then 1 else 0) := by
        unfold statsStep
        by_cases hb : p.id = rootId ∨ (p.is_repost ∧ p.original_post_id = some rootId)
        · rw [if_pos hb]
          by_cases hc : p.is_repost ∧ p.original_post_id = some rootId
          · simp [hc]
          · simp [hc]
        · rw [if_neg hb]
          have hc : ¬(p.is_repost ∧ p.original_post_id = some rootId) := fun hc => hb (Or.inr hc)
          simp [hc]
      rw [hstep]
      by_cases hc : p.is_repost ∧ p.original_post_id = some rootId <;>
        simp [childCount, List.filter_cons, hc] <;> omega

/-- The bound every reachable store satisfies: no root has more than 3 repost
children in the store. -/
def ChildBound (s : SchedulerState) : Prop :=
  ∀ r, childCount r s.posts ≤ 3

/-- `queueFile` preserves the child bound (it only appends non-reposts). -/
theorem childBound_queueFile (f : String) (ov : QueueOverrides) (now : Nat)
    (s : SchedulerState) (hb : ChildBound s) : ChildBound (queueFile f ov now s).1 := by
  intro r
  unfold queueFile
  cases hfind : s.posts.find? (fun p =>
      p.filename = f ∧ (p.status = .QUEUED ∨ p.status = .SCHEDULED)) with
  | some existing => exact hb r
  | none =>
      simp only
      rw [childCount_append]
      have := hb r
      split
      next h => simp at h
      next => omega

/-- `updatePost` preserves the child bound (patches keep repost fields). -/
theorem childBound_updatePost (id : Nat) (u : PostPatch) (s : SchedulerState)
    (hb : ChildBound s) : ChildBound (updatePost id u s) := by
  intro r
  unfold updatePost
  rw [childCount_updateFirst r (applyPatch u) (fun p => ⟨rfl, rfl⟩)]
  exact hb r

/-- `removePost` preserves the child bound. -/
theorem childBound_removePost (id : Nat) (s : SchedulerState)
    (hb : ChildBound s) : ChildBound (removePost id s).1 := by
  intro r
  unfold removePost
  cases hrm : removeFirst id s.posts with
  | mk rest removed =>
      cases removed with
      | some p =>
          simp only
          have : rest.Sublist s.posts := by
            have := removeFirst_sublist id s.posts
            rw [hrm] at this
            exact this
          exact le_trans (childCount_le_of_sublist r this) (hb r)
      | none => exact hb r

/-- `planPosts` preserves the child bound. -/
theorem childBound_planPosts (now : Nat) (s s' : SchedulerState)
    (h : planPosts now s = some s') (hb : ChildBound s) : ChildBound s' := by
  intro r
  unfold planPosts at h
  by_cases h0 : (s.posts.filter (fun p => p.status = .QUEUED)).length = 0
  · rw [if_pos h0] at h; cases h; exact hb r
  · rw [if_neg h0] at h
    cases hp : preview s.config now (s.posts.filter (fun p => p.status = .QUEUED)).length with
    | none => rw [hp] at h; cases h
    | some times =>
        rw [hp] at h
        cases h
        simp only
        rw [childCount_assignTimes]
        exact hb r

/-- `scheduleRepostFromId` preserves the child bound: the `totalReposts >= 3`
guard is checked against the in-store child count before a child is added. -/
theorem childBound_repost (postId : Nat) (reason : RepostReason) (now : Nat)
    (s : SchedulerState) (hb : ChildBound s) :
    ChildBound (scheduleRepostFromId postId reason now s).1 := by
  intro r
  unfold scheduleRepostFromId
  cases hfind : findPost postId s.posts with
  | none => exact hb r
  | some orig =>
      simp only
      cases hroot : findPost (getRootOriginalId orig) s.posts with
      | none => exact hb r
      | some root =>
          simp only
          by_cases hman : root.status ≠ .PUBLISHED ∧ reason = .manual
          · rw [if_pos hman]; exact hb r
          · rw [if_neg hman]
            by_cases htot : 3 ≤ (getRepostStats (getRootOriginalId orig) s.posts).total
            · rw [if_pos htot]; exact hb r
            · rw [if_neg htot]
              by_cases hpend : 0 < (getRepostStats (getRootOriginalId orig) s.posts).pending ∧
                  reason = .auto
              · rw [if_pos hpend]; exact hb r
              · rw [if_neg hpend]
                by_cases hcool : reason = .auto ∧
                    now - (match (getRepostStats (getRootOriginalId orig) s.posts).last with
                      | some t => t
                      | none =>
                          match root.published_at with
                          | some t => t
                          | none => root.created_at) < sixtyDays
                · rw [if_pos hcool]; exact hb r
                · rw [if_neg hcool]
                  simp only
                  rw [childCount_append,
                    childCount_updateFirst r
                      (fun p => { p with repost_count := p.repost_count + 1 })
                      (fun p => ⟨rfl, rfl⟩)]
                  have htotal : (getRepostStats (getRootOriginalId orig) s.posts).total =
                      childCount (getRootOriginalId orig) s.posts := by
                    unfold getRepostStats
                    rw [getRepostStats_total]
                    simp
                  by_cases hr : r = getRootOriginalId orig
                  · rw [if_pos (by simp [hr]), hr]
                    omega
                  · rw [if_neg (by simp [Ne.symm hr])]
                    have := hb r
                    omega

/-- The auto-repost scan preserves the child bound. -/
theorem childBound_autoFold (now : Nat) :
    ∀ (l : List Post) (s : SchedulerState), ChildBound s →
      ChildBound (l.foldl (fun st root => (scheduleRepostFromId root.id .auto now st).1) s) := by
  intro l
  induction l with
  | nil => intro s hb; exact hb
  | cons p ps ih =>
      intro s hb
      rw [List.foldl_cons]
      exact ih _ (childBound_repost p.id .auto now s hb)

/-- `autoRepostTick` preserves the child bound. -/
theorem childBound_autoTick (now : Nat) (s s' : SchedulerState)
    (h : autoRepostTick now s = some s') (hb : ChildBound s) : ChildBound s' := by
  unfold autoRepostTick at h
  by_cases he : ¬s.config.autoRepostEnabled = true
  · rw [if_pos he] at h; cases h; exact hb
  · rw [if_neg he] at h
    have hb1 := childBound_autoFold now
      (s.posts.filter (fun p => ¬p.is_repost ∧ p.status = .PUBLISHED)) s hb
    by_cases hq : ((s.posts.filter (fun p => ¬p.is_repost ∧ p.status = .PUBLISHED)).foldl
        (fun st root => (scheduleRepostFromId root.id .auto now st).1) s).posts.any
        (fun p => p.status = .QUEUED) = true
    · rw [if_pos hq] at h
      exact childBound_planPosts now _ _ h hb1
    · rw [if_neg hq] at h
      cases h
      exact hb1

/-- Every operation run preserves the child bound. -/
theorem childBound_runOps : ∀ (ops : List Op) (s s' : SchedulerState),
    ChildBound s → runOps ops s = some s' → ChildBound s' := by
  intro ops
  induction ops with
  | nil => intro s s' hb h; cases h; exact hb
  | cons op rest ih =>
      intro s s' hb h
      unfold runOps at h
      cases happ : applyOp op s with
      | none => rw [happ] at h; cases h
      | some s1 =>
          rw [happ] at h
          refine ih s1 s' ?_ h
          cases op with
          | queue f ov now =>
              cases happ
              exact childBound_queueFile f ov now s hb
          | plan now =>
              exact childBound_planPosts now s s1 happ hb
          | update id u =>
              cases happ
              exact childBound_updatePost id u s hb
          | remove id =>
              cases happ
              exact childBound_removePost id s hb
          | repost id r now =>
              cases happ
              exact childBound_repost id r now s hb
          | autoTick now =>
              exact childBound_autoTick now s s1 happ hb

/-- Every reachable store satisfies the child bound. -/
theorem reachable_childBound (s : SchedulerState) (h : Reachable s) : ChildBound s := by
  obtain ⟨ops, hops⟩ := h
  refine childBound_runOps ops initialState s ?_ hops
  intro r
  simp [initialState, childCount]

/-! ### Publish orchestration -/

/-- Instagram-success leg of `publishPost`: the stored post becomes PUBLISHED
with the remote media id and the publish instant. -/
theorem publishPost_ig_success (s : SchedulerState) (post q : Post) (now : Nat)
    (mid : String) (fbRes : AttemptOutcome) (hq : findPost post.id s.posts = some q)
    (hig : (platformsOf post).instagram = true) :
    ∃ q', findPost post.id (publishPost post now (.success mid) fbRes s).posts = some q' ∧
      q'.status = .PUBLISHED ∧ q'.ig_media_id = some mid ∧ q'.published_at = some now := by
  simp only [publishPost, hig, if_true]
  rw [if_neg (by simp)]
  rw [findPost_updatePost, findPost_updatePost, hq]
  exact ⟨_, rfl, by simp [applyPatch], by simp [applyPatch], by simp [applyPatch]⟩

/-- All-fail leg of `publishPost`: when the Instagram attempt does not succeed
(disabled or failed) and Facebook is not an enabled success either, the stored
post becomes ERROR with the fixed message. -/
theorem publishPost_all_fail (s : SchedulerState) (post q : Post) (now : Nat)
    (igRes fbRes : AttemptOutcome) (hq : findPost post.id s.posts = some q)
    (hignot : (platformsOf post).instagram = true → igRes.isSuccess = false)
    (hfb : ¬(fbEnabled (platformsOf post) = true ∧ fbRes.isSuccess = true)) :
    ∃ q', findPost post.id (publishPost post now igRes fbRes s).posts = some q' ∧
      q'.status = .ERROR ∧ q'.error_message = some "No platform succeeded" := by
  have hcond : ¬(false : Bool) = true ∧
      ¬(fbEnabled (platformsOf post) = true ∧
        (fbEnabled (platformsOf post) && fbRes.isSuccess) = true) := by
    refine ⟨by simp, fun h => hfb ⟨h.1, ?_⟩⟩
    have h2 := h.2
    rw [h.1, Bool.true_and] at h2
    exact h2
  by_cases hig : (platformsOf post).instagram = true
  · cases igRes with
    | success mid => exact absurd (hignot hig) (by simp [AttemptOutcome.isSuccess])
    | failure msg =>
        simp only [publishPost, hig, if_true]
        rw [if_pos hcond]
        rw [findPost_updatePost, findPost_updatePost, hq]
        exact ⟨_, rfl, by simp [applyPatch], by simp [applyPatch]⟩
  · simp only [publishPost]
    rw [if_neg hig]
    rw [if_pos hcond]
    rw [findPost_updatePost, findPost_updatePost, hq]
    exact ⟨_, rfl, by simp [applyPatch], by simp [applyPatch]⟩

/-- Facebook-only-success leg of `publishPost`: when the Instagram attempt does
not succeed but enabled Facebook does, the stored post is left in PUBLISHING
(no code path promotes a Facebook-only success to PUBLISHED). -/
theorem publishPost_fb_only (s : SchedulerState) (post q : Post) (now : Nat)
    (igRes fbRes : AttemptOutcome) (hq : findPost post.id s.posts = some q)
    (hignot : (platformsOf post).instagram = true → igRes.isSuccess = false)
    (hfbe : fbEnabled (platformsOf post) = true) (hfbs : fbRes.isSuccess = true) :
    ∃ q', findPost post.id (publishPost post now igRes fbRes s).posts = some q' ∧
      q'.status = .PUBLISHING := by
  by_cases hig : (platformsOf post).instagram = true
  · cases igRes with
    | success mid => exact absurd (hignot hig) (by simp [AttemptOutcome.isSuccess])
    | failure msg =>
        simp only [publishPost, hig, if_true]
        rw [if_neg (by simp [hfbe, hfbs])]
        rw [findPost_updatePost, hq]
        exact ⟨_, rfl, by simp [applyPatch]⟩
  · simp only [publishPost]
    rw [if_neg hig]
    rw [if_neg (by simp [hfbe, hfbs])]
    rw [findPost_updatePost, hq]
    exact ⟨_, rfl, by simp [applyPatch]⟩

/-- An in-range poll trace: transiently not ready `k` times, then finished. -/
theorem igWaitAux_transient (k : Nat) :
    ∀ fuel i, i ≤ k → k - i < fuel →
      igWaitAux (transientTrace k) fuel i = (.ok, k + 1) := by
  intro fuel
  induction fuel with
  | zero => intro i _ h; omega
  | succ n ih =>
      intro i hik hfuel
      by_cases hi : i < k
      · have : transientTrace k i = .notReady := by simp [transientTrace, hi]
        simp only [igWaitAux, this]
        exact ih (i + 1) (by omega) (by omega)
      · have hik' : i = k := by omega
        have : transientTrace k i = .finished := by simp [transientTrace, hi]
        simp only [igWaitAux, this]
        rw [hik']

/-- A terminal error on the first poll aborts after exactly one poll. -/
theorem igWait_errorTrace : igWaitFinished errorTrace = (.aborted, 1) := rfl

/-! ### Claim theorems -/

/-- Claim C2, counterexample: in a store holding two due SCHEDULED posts in
reverse `scheduled_at` order, `getReadyPosts` returns them in insertion order
`[2000, 1000]`, which is not sorted by `scheduledAt` ascending — refuting the
claimed sort guarantee. -/
theorem c2_counterexample :
    (getReadyPosts 3000 storeUnsorted).map Post.scheduled_at = [2000, 1000] ∧
    ¬List.Pairwise (fun a b => a ≤ b)
      ((getReadyPosts 3000 storeUnsorted).map Post.scheduled_at) := by
  refine ⟨by decide, ?_⟩
  intro h
  rw [show (getReadyPosts 3000 storeUnsorted).map Post.scheduled_at = [2000, 1000]
    from by decide] at h
  have := List.rel_of_pairwise_cons h (List.mem_singleton.2 rfl)
  omega

/-- Claim C2, amended: `getReadyPosts(now)` returns exactly the SCHEDULED
posts with `scheduledAt ≤ now`, in store (insertion) order — a sublist of the
post list — but it does not sort the result by `scheduledAt`. -/
theorem c2_getReadyPosts_exact :
    ∀ (now : Nat) (s : SchedulerState),
      (getReadyPosts now s).Sublist s.posts ∧
      ∀ p : Post, p ∈ getReadyPosts now s ↔
        p ∈ s.posts ∧ p.status = .SCHEDULED ∧ p.scheduled_at ≤ now := by
  intro now s
  refine ⟨List.filter_sublist _, fun p => ?_⟩
  simp [getReadyPosts, List.mem_filter, and_assoc]

/-- Claim C3, counterexample: a reachable state (queue a published root, then
four rounds of manual repost plus child removal) whose root post is a
non-repost with `repost_count = 4 > 3` — the `totalReposts >= 3` guard counts
the children currently in the store, not `repost_count`. -/
theorem c3_counterexample :
    ∃ s, Reachable s ∧
      (findPost 0 s.posts).map (fun p => (p.is_repost, p.repost_count)) =
        some (false, 4) :=
  ⟨_, ⟨opsRepostLoop, rfl⟩, by decide⟩

/-- Claim C3, amended: in every reachable state of the Post Store, the number
of repost children of a root that are present in the store never exceeds 3
(the root's `repost_count` field itself can exceed 3 once repost children are
removed, as the counterexample shows). -/
theorem c3_store_children_bounded :
    ∀ s : SchedulerState, Reachable s → ∀ r : Nat, childCount r s.posts ≤ 3 :=
  fun s h => reachable_childBound s h

/-- Claim C3, witness: the bound instantiated on a concrete reachable state. -/
theorem c3_witness : ∃ s, Reachable s ∧ childCount 0 s.posts ≤ 3 :=
  ⟨_, ⟨opsDoubleManual, rfl⟩,
    c3_store_children_bounded _ ⟨opsDoubleManual, rfl⟩ 0⟩

/-- Claim C4, counterexample: a reachable state (published root, two manual
reposts back to back) in which the root has two pending repost children — the
`pendingReposts > 0` guard applies only to `auto` reposts, so a manual repost
can create a second pending child. -/
theorem c4_counterexample :
    ∃ s, Reachable s ∧ pendingChildCount 0 s.posts = 2 :=
  ⟨_, ⟨opsDoubleManual, rfl⟩, by decide⟩

/-- Claim C4, amended: only `auto` reposts are guarded against duplicates:
`scheduleRepostFromId` with reason `auto` returns null and leaves the store
unchanged whenever the resolved root already has a pending repost child
(manual reposts are not so restricted, as the counterexample shows). -/
theorem c4_auto_no_duplicate_pending :
    ∀ (s : SchedulerState) (postId now : Nat) (orig : Post),
      findPost postId s.posts = some orig →
      0 < (getRepostStats (getRootOriginalId orig) s.posts).pending →
      scheduleRepostFromId postId .auto now s = (s, none) := by
  intro s postId now orig hfind hpend
  unfold scheduleRepostFromId
  simp only [hfind]
  cases hroot : findPost (getRootOriginalId orig) s.posts with
  | none => simp
  | some root =>
      simp only
      rw [if_neg (by simp)]
      by_cases htot : 3 ≤ (getRepostStats (getRootOriginalId orig) s.posts).total
      · rw [if_pos htot]
      · rw [if_neg htot, if_pos ⟨hpend, trivial⟩]

/-- Claim C4, witness: the auto guard firing on a concrete store that already
holds a pending repost child. -/
theorem c4_witness :
    scheduleRepostFromId 0 .auto 99 storePendingChild = (storePendingChild, none) :=
  c4_auto_no_duplicate_pending storePendingChild 0 99 pendingRoot (by decide) (by decide)

/-- Claim C7, counterexample: with no matching QUEUED/SCHEDULED post in the
store, `queueFile` called with a status override (as the draft-scheduling
endpoint does) creates a post whose status is SCHEDULED, not QUEUED —
refuting "otherwise it creates and returns a new post with status QUEUED". -/
theorem c7_counterexample :
    (queueFile "a.jpg" ovScheduled 0 initialState).2.status = Status.SCHEDULED ∧
      Status.SCHEDULED ≠ Status.QUEUED := by
  exact ⟨by decide, by decide⟩

/-- Claim C7, amended: `queueFile` is idempotent while a post with the same
filename is QUEUED or SCHEDULED (that post is returned and the store is
unchanged); otherwise it appends and returns a new post whose status is
QUEUED unless overridden by `overrides.status`, with the collaborator-supplied
default caption unless overridden. -/
theorem c7_queueFile_idempotent :
    (∀ (s : SchedulerState) (f : String) (ov : QueueOverrides) (now : Nat) (p : Post),
      s.posts.find? (fun q =>
        q.filename = f ∧ (q.status = .QUEUED ∨ q.status = .SCHEDULED)) = some p →
      queueFile f ov now s = (s, p)) ∧
    (∀ (s : SchedulerState) (f : String) (ov : QueueOverrides) (now : Nat),
      s.posts.find? (fun q =>
        q.filename = f ∧ (q.status = .QUEUED ∨ q.status = .SCHEDULED)) = none →
      (queueFile f ov now s).1.posts = s.posts ++ [(queueFile f ov now s).2] ∧
      (queueFile f ov now s).2.status = ov.status.getD .QUEUED ∧
      (queueFile f ov now s).2.filename = f ∧
      (queueFile f ov now s).2.caption = ov.caption.getD (generateCaption f)) := by
  constructor
  · intro s f ov now p h
    unfold queueFile
    rw [h]
  · intro s f ov now h
    unfold queueFile
    rw [h]
    exact ⟨rfl, rfl, rfl, rfl⟩

/-- Claim C7, witness: idempotence on a store already holding the filename,
and default-QUEUED creation on an empty store. -/
theorem c7_witness :
    queueFile "late.jpg" {} 5 storeUnsorted = (storeUnsorted, postLate) ∧
    (queueFile "x.jpg" {} 0 initialState).2.status = Status.QUEUED := by
  refine ⟨c7_queueFile_idempotent.1 storeUnsorted "late.jpg" {} 5 postLate (by decide), ?_⟩
  exact ((c7_queueFile_idempotent.2 initialState "x.jpg" {} 0 (by decide)).2.1).trans rfl

/-- Claim C9: with auto-repost enabled and a single root published at day 0,
the tick at day 59 changes nothing; the tick at day 61 creates exactly one
repost child of the root (created with status QUEUED by
`scheduleRepostFromId`, then immediately planned by the same tick), and the
root's `repost_count` becomes 1. -/
theorem c9_auto_repost_scenario :
    autoRepostTick (59 * msPerDay) storeRootR = some storeRootR ∧
    ((scheduleRepostFromId 0 .auto (61 * msPerDay) storeRootR).2).map Post.status =
      some .QUEUED ∧
    (autoRepostTick (61 * msPerDay) storeRootR).map (fun s =>
      (s.posts.length,
        (findPost 0 s.posts).map Post.repost_count,
        s.posts.map (fun p => (p.is_repost, p.original_post_id)))) =
      some (2, some 1, [(false, none), (true, some 0)]) :=
  ⟨by decide, by decide, by decide⟩

/-- Claim C1, counterexample: a post with Instagram disabled and Facebook
enabled whose Facebook attempt succeeds ends the pass in PUBLISHING — an
enabled platform succeeded yet the post is neither PUBLISHED nor in any
terminal status, refuting the claimed outcome aggregation. -/
theorem c1_counterexample :
    (findPost 0 (publishPost postFbOnly 100 (.failure "boom") (.success "fb_media")
        storeFbOnly).posts).map Post.status = some .PUBLISHING ∧
      Status.PUBLISHING ≠ Status.PUBLISHED ∧ Status.PUBLISHING ≠ Status.ERROR := by
  exact ⟨by decide, by decide, by decide⟩

/-- Claim C1, amended: `publishPost` aggregates outcomes as follows — the post
becomes PUBLISHED (with `ig_media_id` and `published_at` recorded) exactly when
the Instagram attempt is enabled and succeeds; if no attempted platform
succeeds it becomes ERROR with the fixed message `"No platform succeeded"`
(not the most recent failure message); and if Instagram does not succeed while
enabled Facebook does, the post is left in PUBLISHING (not a terminal
status). -/
theorem c1_outcome_aggregation :
    ∀ (s : SchedulerState) (post q : Post) (now : Nat) (igRes fbRes : AttemptOutcome),
      findPost post.id s.posts = some q →
      ((∀ mid, (platformsOf post).instagram = true → igRes = .success mid →
          ∃ q', findPost post.id (publishPost post now igRes fbRes s).posts = some q' ∧
            q'.status = .PUBLISHED ∧ q'.ig_media_id = some mid ∧
            q'.published_at = some now) ∧
        (((platformsOf post).instagram = true → igRes.isSuccess = false) →
          ¬(fbEnabled (platformsOf post) = true ∧ fbRes.isSuccess = true) →
          ∃ q', findPost post.id (publishPost post now igRes fbRes s).posts = some q' ∧
            q'.status = .ERROR ∧ q'.error_message = some "No platform succeeded") ∧
        (((platformsOf post).instagram = true → igRes.isSuccess = false) →
          fbEnabled (platformsOf post) = true → fbRes.isSuccess = true →
          ∃ q', findPost post.id (publishPost post now igRes fbRes s).posts = some q' ∧
            q'.status = .PUBLISHING)) := by
  intro s post q now igRes fbRes hq
  refine ⟨?_, ?_, ?_⟩
  · intro mid hig heq
    subst heq
    exact publishPost_ig_success s post q now mid fbRes hq hig
  · intro hignot hfb
    exact publishPost_all_fail s post q now igRes fbRes hq hignot hfb
  · intro hignot hfbe hfbs
    exact publishPost_fb_only s post q now igRes fbRes hq hignot hfbe hfbs

/-- Claim C1, witness: an Instagram-only post whose attempt succeeds ends
PUBLISHED with the media id and instant recorded. -/
theorem c1_witness :
    ∃ q', findPost 0 (publishPost postIgOnly 5 (.success "m") (.failure "f")
        storeIgOnly).posts = some q' ∧
      q'.status = .PUBLISHED ∧ q'.ig_media_id = some "m" ∧ q'.published_at = some 5 :=
  (c1_outcome_aggregation storeIgOnly postIgOnly postIgOnly 5 (.success "m")
    (.failure "f") (by decide)).1 "m" (by decide) rfl

/-- Claim C8: the await-ready step retries a transient "not ready" response up
to its 21-attempt budget, so a trace with `k < 21` transient failures followed
by FINISHED resolves and the post reaches PUBLISHED; a terminal ERROR response
on the first poll aborts after exactly one poll (without exhausting the
budget) and the post reaches ERROR. -/
theorem c8_await_ready_retry :
    (∀ (k : Nat) (mid : String), k < igWaitAttempts →
      igWaitFinished (transientTrace k) = (.ok, k + 1) ∧
      igOutcomeOfTrace (transientTrace k) mid = .success mid ∧
      (∀ (s : SchedulerState) (post q : Post) (now : Nat) (fbRes : AttemptOutcome),
        post.platforms = none → findPost post.id s.posts = some q →
        ∃ q', findPost post.id (publishPost post now
            (igOutcomeOfTrace (transientTrace k) mid) fbRes s).posts = some q' ∧
          q'.status = .PUBLISHED)) ∧
    (igWaitFinished errorTrace = (.aborted, 1) ∧ (1 : Nat) < igWaitAttempts ∧
      (∀ (mid : String) (s : SchedulerState) (post q : Post) (now : Nat)
          (fbRes : AttemptOutcome),
        post.platforms = none → findPost post.id s.posts = some q →
        ∃ q', findPost post.id (publishPost post now
            (igOutcomeOfTrace errorTrace mid) fbRes s).posts = some q' ∧
          q'.status = .ERROR)) := by
  constructor
  · intro k mid hk
    have hwait : igWaitFinished (transientTrace k) = (.ok, k + 1) := by
      unfold igWaitFinished
      exact igWaitAux_transient k igWaitAttempts 0 (by omega)
        (by unfold igWaitAttempts at hk ⊢; omega)
    have hout : igOutcomeOfTrace (transientTrace k) mid = .success mid := by
      unfold igOutcomeOfTrace
      rw [hwait]
    refine ⟨hwait, hout, ?_⟩
    intro s post q now fbRes hpl hq
    rw [hout]
    have hig : (platformsOf post).instagram = true := by simp [platformsOf, hpl]
    obtain ⟨q', h1, h2, _, _⟩ := publishPost_ig_success s post q now mid fbRes hq hig
    exact ⟨q', h1, h2⟩
  · refine ⟨igWait_errorTrace, by decide, ?_⟩
    intro mid s post q now fbRes hpl hq
    have hig : (platformsOf post).instagram = true := by simp [platformsOf, hpl]
    have hfbe : fbEnabled (platformsOf post) = false := by
      simp [platformsOf, hpl, fbEnabled]
    have hout : igOutcomeOfTrace errorTrace mid = .failure "IG processing error" := rfl
    rw [hout]
    obtain ⟨q', h1, h2, _⟩ := publishPost_all_fail s post q now
      (.failure "IG processing error") fbRes hq (fun _ => rfl) (by simp [hfbe])
    exact ⟨q', h1, h2⟩

/-- Claim C8, witness: three transient polls then FINISHED reaches PUBLISHED;
a first-poll terminal error reaches ERROR. -/
theorem c8_witness :
    igWaitFinished (transientTrace 3) = (.ok, 4) ∧
    (∃ q', findPost 0 (publishPost postIgOnly 7 (igOutcomeOfTrace (transientTrace 3) "m")
        (.failure "f") storeIgOnly).posts = some q' ∧ q'.status = .PUBLISHED) ∧
    (∃ q', findPost 0 (publishPost postIgOnly 7 (igOutcomeOfTrace errorTrace "m")
        (.failure "f") storeIgOnly).posts = some q' ∧ q'.status = .ERROR) := by
  obtain ⟨h1, _, h3⟩ := c8_await_ready_retry.1 3 "m" (by decide)
  refine ⟨h1, h3 storeIgOnly postIgOnly postIgOnly 7 (.failure "f") (by decide) (by decide), ?_⟩
  exact c8_await_ready_retry.2.2.2 "m" storeIgOnly postIgOnly postIgOnly 7 (.failure "f")
    (by decide) (by decide)

/-- Claim C5: for every valid configuration, start instant, and count in
`[1, 365]`, `preview` terminates and returns exactly `count` timestamps, each
at/after the start and each on an allowed weekday, in both modes. -/
theorem c5_preview_contract :
    ∀ (cfg : ScheduleConfig) (start count : Nat),
      ValidConfig cfg → 1 ≤ count → count ≤ 365 →
      ∃ res, preview cfg start count = some res ∧ res.length = count ∧
        ∀ x ∈ res, start ≤ x ∧ cfg.days.contains (wday x) = true := by
  intro cfg start count hv _ _
  obtain ⟨res, hres⟩ := preview_some cfg start count hv.1 hv.2.1
  exact ⟨res, hres, preview_length _ _ _ _ hres, preview_mem _ _ _ _ hv hres⟩

/-- Claim C5, witness: the contract instantiated on the default configuration. -/
theorem c5_witness :
    ∃ res, preview defaultConfig 0 2 = some res ∧ res.length = 2 ∧
      ∀ x ∈ res, 0 ≤ x ∧ defaultConfig.days.contains (wday x) = true :=
  c5_preview_contract defaultConfig 0 2
    ⟨by decide, by decide, by decide, by decide, by decide⟩ (by decide) (by decide)

/-- Every weekday is contained in the all-days list. -/
theorem alldays_contains (t : Nat) :
    ([0, 1, 2, 3, 4, 5, 6] : List Nat).contains (wday t) = true := by
  have h := wday_lt t
  revert h
  generalize wday t = w
  intro h
  interval_cases w <;> decide

/-- With all weekdays allowed, the skip loop returns immediately. -/
theorem nextAllowedDay_alldays (t : Nat) :
    nextAllowedDay [0, 1, 2, 3, 4, 5, 6] 7 t = some t := by
  rw [show nextAllowedDay [0, 1, 2, 3, 4, 5, 6] 7 t =
      if ([0, 1, 2, 3, 4, 5, 6] : List Nat).contains (wday t) = true then some t
      else nextAllowedDay [0, 1, 2, 3, 4, 5, 6] 6 (t + msPerDay) from rfl,
    if_pos (alldays_contains t)]

/-- One unfolding step of the interval-mode loop. -/
theorem intervalAux_step (days : List Nat) (hours count fuel cursor : Nat)
    (out : List Nat) :
    previewIntervalAux days hours count (fuel + 1) cursor out =
      if out.length < count then
        match nextAllowedDay days 7 (cursor + hours * msPerHour) with
        | none => none
        | some c2 =>
            previewIntervalAux days hours count fuel c2
              (if days.contains (wday cursor) = true then out ++ [cursor] else out)
      else some out := rfl

/-- Scenario B's preview: interval mode, 4 hours, all days — three slots at
`t`, `t + 4h`, `t + 8h`. -/
theorem preview_default3 (t : Nat) :
    preview defaultConfig t 3 =
      some [t, t + 4 * msPerHour, t + 8 * msPerHour] := by
  have h48 : t + 4 * msPerHour + 4 * msPerHour = t + 8 * msPerHour := by
    unfold msPerHour
    omega
  show previewIntervalAux [0, 1, 2, 3, 4, 5, 6] (max 1 4) 3 (3 + 1) t [] = _
  rw [show max 1 4 = 4 from rfl]
  rw [intervalAux_step, if_pos (by simp : ([] : List Nat).length < 3)]
  simp only [nextAllowedDay_alldays]
  rw [if_pos (alldays_contains t)]
  show previewIntervalAux [0, 1, 2, 3, 4, 5, 6] 4 3 (2 + 1) (t + 4 * msPerHour)
    ([] ++ [t]) = _
  rw [intervalAux_step, if_pos (by simp : (([] : List Nat) ++ [t]).length < 3)]
  simp only [nextAllowedDay_alldays]
  rw [if_pos (alldays_contains (t + 4 * msPerHour))]
  show previewIntervalAux [0, 1, 2, 3, 4, 5, 6] 4 3 (1 + 1)
    (t + 4 * msPerHour + 4 * msPerHour) (([] ++ [t]) ++ [t + 4 * msPerHour]) = _
  rw [intervalAux_step,
    if_pos (by simp : ((([] : List Nat) ++ [t]) ++ [t + 4 * msPerHour]).length < 3)]
  simp only [nextAllowedDay_alldays]
  rw [if_pos (alldays_contains (t + 4 * msPerHour + 4 * msPerHour))]
  show previewIntervalAux [0, 1, 2, 3, 4, 5, 6] 4 3 (0 + 1)
    (t + 4 * msPerHour + 4 * msPerHour + 4 * msPerHour)
    ((([] ++ [t]) ++ [t + 4 * msPerHour]) ++ [t + 4 * msPerHour + 4 * msPerHour]) = _
  rw [intervalAux_step, if_neg (by simp :
    ¬(((([] : List Nat) ++ [t]) ++ [t + 4 * msPerHour]) ++
      [t + 4 * msPerHour + 4 * msPerHour]).length < 3)]
  rw [h48]
  simp

/-- Claim C6: within one `planPosts` call the timestamps assigned to the
QUEUED posts (read off position-wise against the pre-call store) are the
`preview` sequence, hence non-decreasing with creation order; concretely, in
interval mode with `intervalHours = 4` and all weekdays allowed, queueing
a, b, c in order and planning at instant `t` assigns `t`, `t + 4h`,
`t + 8h`. -/
theorem c6_fifo_assignment :
    (∀ (now : Nat) (s s' : SchedulerState), ValidConfig s.config →
      planPosts now s = some s' →
      List.Pairwise (fun a b => a ≤ b)
        (((s'.posts.zip s.posts).filter (fun pq => pq.2.status = .QUEUED)).map
          (fun pq => pq.1.scheduled_at))) ∧
    (∀ t, ∃ s', planPosts t (storeABC t) = some s' ∧
      s'.posts.map (fun p => (p.status, p.scheduled_at)) =
        [(.SCHEDULED, t), (.SCHEDULED, t + 4 * msPerHour),
          (.SCHEDULED, t + 8 * msPerHour)]) := by
  constructor
  · intro now s s' hv hplan
    rcases planPosts_assigned now s s' hplan with ⟨hmap, _⟩ | ⟨times, hsome, hmap⟩
    · rw [hmap]
      exact List.Pairwise.nil
    · rw [hmap]
      exact preview_pairwise _ _ _ _ hv hsome
  · intro t
    have hq : ((storeABC t).posts.filter (fun p => p.status = .QUEUED)).length = 3 := by
      simp [storeABC, queuedPostABC]
    refine ⟨{ storeABC t with
        posts := assignTimes [t, t + 4 * msPerHour, t + 8 * msPerHour] t
          (storeABC t).posts 0 }, ?_, ?_⟩
    · unfold planPosts
      rw [hq, if_neg (by decide)]
      rw [show (storeABC t).config = defaultConfig from rfl, preview_default3]
      rfl
    · simp only [storeABC, queuedPostABC, assignTimes]
      norm_num [List.get?]

/-- Claim C6, witness: the FIFO monotonicity instantiated on a concrete store
and plan run. -/
theorem c6_witness :
    ∃ s', planPosts 0 (storeABC 0) = some s' ∧
      List.Pairwise (fun a b => a ≤ b)
        (((s'.posts.zip (storeABC 0).posts).filter (fun pq => pq.2.status = .QUEUED)).map
          (fun pq => pq.1.scheduled_at)) := by
  obtain ⟨s', hs'⟩ : ∃ s', planPosts 0 (storeABC 0) = some s' := ⟨_, rfl⟩
  exact ⟨s', hs', c6_fifo_assignment.1 0 (storeABC 0) s'
    ⟨by decide, by decide, by decide, by decide, by decide⟩ hs'⟩

/-- The day-skip loop never finds a day in an empty allowed set. -/
theorem nextAllowedDay_nil : ∀ fuel t, nextAllowedDay [] fuel t = none := by
  intro fuel
  induction fuel with
  | zero => intro t; rfl
  | succ n ih =>
      intro t
      rw [show nextAllowedDay [] (n + 1) t =
          if (([] : List Nat).contains (wday t)) = true then some t
          else nextAllowedDay [] n (t + msPerDay) from rfl,
        if_neg (by simp)]
      exact ih (t + msPerDay)

/-- With an empty allowed-days set and at least one slot still needed, the
interval loop never completes, whatever the fuel. -/
theorem intervalAux_nil_none (hours count : Nat) :
    ∀ (fuel cursor : Nat) (out : List Nat), out.length < count →
      previewIntervalAux [] hours count fuel cursor out = none := by
  intro fuel cursor out hlen
  cases fuel with
  | zero =>
      show (if count ≤ out.length then some out else none) = none
      rw [if_neg (by omega)]
  | succ n =>
      rw [intervalAux_step, if_pos hlen, nextAllowedDay_nil]

/-- With an empty allowed-days set and at least one slot still needed, the
times-mode loop never completes, whatever the fuel. -/
theorem timesAux_nil_none (times : List HM) (start count : Nat) :
    ∀ (fuel cursor : Nat) (out : List Nat), out.length < count →
      previewTimesAux [] times start count fuel cursor out = none := by
  intro fuel
  induction fuel with
  | zero => intro cursor out _; rfl
  | succ n ih =>
      intro cursor out hlen
      rw [timesAux_step, if_pos hlen, if_neg (by simp)]
      exact ih _ _ hlen

/-- Claim C10: `preview` terminates for every start and count whenever the
allowed-days set is a nonempty subset of `0..6`; `setConfig` accepts an update
that empties the days list (it filters the supplied array but never rejects or
defaults an empty result); and with an empty days list `preview` diverges (the
loop completes for no fuel) in both modes. -/
theorem c10_preview_termination :
    (∀ (cfg : ScheduleConfig) (start count : Nat),
      cfg.days ≠ [] → (∀ d ∈ cfg.days, d ≤ 6) →
      ∃ res, preview cfg start count = some res) ∧
    (∀ c : ScheduleConfig, (setConfigC { days := some [] } c).days = []) ∧
    (∀ c : ScheduleConfig, (setConfigC { days := some [9, 3] } c).days = [3]) ∧
    (∀ (cfg : ScheduleConfig) (start count : Nat), cfg.days = [] → 1 ≤ count →
      preview cfg start count = none) := by
  refine ⟨preview_some, fun c => rfl, fun c => rfl, ?_⟩
  intro cfg start count hd h1
  unfold preview
  cases hm : cfg.mode with
  | interval =>
      rw [hd]
      exact intervalAux_nil_none _ count _ start [] (by simpa using h1)
  | times =>
      rw [hd]
      exact timesAux_nil_none _ start count _ start [] (by simpa using h1)

/-- Claim C10, witness: termination on the default config, the empty-days
update accepted by `setConfig`, and divergence once the days list is empty. -/
theorem c10_witness :
    (∃ res, preview defaultConfig 0 1 = some res) ∧
    (setConfigC { days := some [] } defaultConfig).days = [] ∧
    preview { defaultConfig with days := ([] : List Nat) } 0 1 = none :=
  ⟨c10_preview_termination.1 defaultConfig 0 1 (by decide) (by decide),
    c10_preview_termination.2.1 defaultConfig,
    c10_preview_termination.2.2.2 { defaultConfig with days := ([] : List Nat) } 0 1
      rfl (by decide)⟩

end BulkIG
